import Mathlib

/-!
Verification of the libWexpr repository (W-Expressions codec and WexprTool
driver) against its natural-language specification.

Byte strings are modelled as `List Nat` (each entry one byte).  Pure C
functions become Lean functions; fallible operations return `Except` or
`Option`.  The tool driver is translated from
`src/WexprTool/Private/Application.cpp`; components whose implementation
files are not part of the source snapshot (base64 codec, textual parser,
textual writer, binary chunk decoder, expression accessors) are modelled
from the specification, as marked in their doc comments.
-/

namespace Wexpr

/-- Convert an ASCII Lean string to its byte list. -/
def strBytes (s : String) : List Nat :=
  s.data.map Char.toNat

/-! ## Base64 codec

Modelled from the spec (section 4.A): the implementation file
`Private/Base64.c` is not in the source snapshot.  Standard base64 with
padding, as the spec requires: standard alphabet plus the padding byte,
failure on any other byte or truncated group, empty input encodes to the
empty string. -/

/-- Modelled from the spec: map a sextet (0..63) to its base64 alphabet byte. -/
def b64EncChar (s : Nat) : Nat :=
  if s < 26 then 65 + s
  else if s < 52 then 97 + (s - 26)
  else if s < 62 then 48 + (s - 52)
  else if s = 62 then 43
  else 47

/-- Modelled from the spec: map a base64 alphabet byte back to its sextet. -/
def b64DecChar (c : Nat) : Option Nat :=
  if 65 ≤ c ∧ c ≤ 90 then some (c - 65)
  else if 97 ≤ c ∧ c ≤ 122 then some (26 + (c - 97))
  else if 48 ≤ c ∧ c ≤ 57 then some (52 + (c - 48))
  else if c = 43 then some 62
  else if c = 47 then some 63
  else none

/-- Modelled from the spec: base64-encode a byte list; 61 is the ASCII code
of the padding character and no line breaks are emitted. -/
def b64Encode : List Nat → List Nat
  | [] => []
  | [a] => [b64EncChar (a / 4), b64EncChar (a % 4 * 16), 61, 61]
  | [a, b] => [b64EncChar (a / 4), b64EncChar (a % 4 * 16 + b / 16), b64EncChar (b % 16 * 4), 61]
  | a :: b :: c :: rest =>
    b64EncChar (a / 4) :: b64EncChar (a % 4 * 16 + b / 16) ::
    b64EncChar (b % 16 * 4 + c / 64) :: b64EncChar (c % 64) :: b64Encode rest

/-- Modelled from the spec: base64-decode; `none` on any byte outside the
alphabet, on a truncated group, or on misplaced padding. -/
def b64Decode : List Nat → Option (List Nat)
  | [] => some []
  | c1 :: c2 :: c3 :: c4 :: rest =>
    match b64DecChar c1, b64DecChar c2 with
    | some s1, some s2 =>
      let b0 := s1 * 4 + s2 / 16
      if c3 = 61 then
        if c4 = 61 then
          if rest = [] then some [b0] else none
        else none
      else
        match b64DecChar c3 with
        | some s3 =>
          let b1 := s2 % 16 * 16 + s3 / 4
          if c4 = 61 then
            if rest = [] then some [b0, b1] else none
          else
            match b64DecChar c4 with
            | some s4 =>
              match b64Decode rest with
              | some t => some (b0 :: b1 :: (s3 % 4 * 64 + s4) :: t)
              | none => none
            | none => none
        | none => none
    | _, _ => none
  | _ => none

/-- A byte belongs to the set the base64 encoder may emit. -/
def isB64OutByte (c : Nat) : Prop :=
  (65 ≤ c ∧ c ≤ 90) ∨ (97 ≤ c ∧ c ≤ 122) ∨ (48 ≤ c ∧ c ≤ 57) ∨ c = 43 ∨ c = 47 ∨ c = 61

instance (c : Nat) : Decidable (isB64OutByte c) := by
  unfold isB64OutByte; infer_instance

/-! ## Expression tree

Data model from spec section 3 and `Public/libWexpr/Expression.h`: a tagged
value with variants Invalid, Null, Value (byte string), BinaryData (byte
buffer), Array (ordered children) and Map (ordered key/value pairs).  The
parse-time Ref variant never appears in a finished tree and is kept in the
reference table of the parser instead. -/

inductive Expr where
  | invalid : Expr
  | null : Expr
  | value : List Nat → Expr
  | binaryData : List Nat → Expr
  | array : List Expr → Expr
  | map : List (List Nat × Expr) → Expr

/-- The expression type tag, mirroring `WexprExpressionType`. -/
inductive ExprType where
  | invalid | null | value | binaryData | array | map
deriving DecidableEq

/-- Error codes, mirroring the `WexprErrorCode` taxonomy of spec section 7. -/
inductive ErrorCode where
  | none | invalidUTF8 | stringMissingEndingQuote | invalidStringEscape
  | mapKeyMustBeAValue | mapNoValue | mapMissingEndParen | arrayMissingEndParen
  | referenceMissingEndBracket | referenceInsertMissingEnd | referenceUnknownReference
  | binaryDataNoEnding | binaryDataInvalidBase64 | extraDataAfterParsingRoot
  | emptyString | binaryInvalidHeader | binaryUnknownVersion | binaryMultipleExpressions
  | binaryChunkOverflow | binaryUnknownType | binaryChunkNotMap
deriving DecidableEq

/-- The error structure `WexprError`: kind, 1-based line and column for
textual errors (zero on the binary path), and a human message. -/
structure WexprError where
  code : ErrorCode
  line : Nat
  column : Nat
  message : String
deriving DecidableEq

/-- The `WEXPR_ERROR_INIT()` value: no error. -/
def errorInit : WexprError := ⟨.none, 0, 0, ""⟩

/-! ## Expression accessors

Modelled from the spec (section 4.C) and the doc comments of
`Expression.h`: the implementation file `Private/Expression.c` is not in
the source snapshot.  A receiver is an `Option Expr`: `Option.none` stands
for a NULL `WexprExpression` pointer.  Per the spec, every accessor on a
null or invalid receiver returns the type-appropriate empty (empty string,
zero count, null pointer) and getting the value of a non-Value returns
empty. -/

def wexpr_Expression_type : Option Expr → ExprType
  | some .invalid => .invalid
  | some .null => .null
  | some (.value _) => .value
  | some (.binaryData _) => .binaryData
  | some (.array _) => .array
  | some (.map _) => .map
  | none => .invalid

def wexpr_Expression_value : Option Expr → List Nat
  | some (.value s) => s
  | _ => []

def wexpr_Expression_binaryData_size : Option Expr → Nat
  | some (.binaryData b) => b.length
  | _ => 0

def wexpr_Expression_arrayCount : Option Expr → Nat
  | some (.array xs) => xs.length
  | _ => 0

def wexpr_Expression_arrayAt : Option Expr → Nat → Option Expr
  | some (.array xs), i => xs.get? i
  | _, _ => none

def wexpr_Expression_mapCount : Option Expr → Nat
  | some (.map ps) => ps.length
  | _ => 0

def wexpr_Expression_mapKeyAt : Option Expr → Nat → Option (List Nat)
  | some (.map ps), i => (ps.get? i).map Prod.fst
  | _, _ => none

def wexpr_Expression_mapValueAt : Option Expr → Nat → Option Expr
  | some (.map ps), i => (ps.get? i).map Prod.snd
  | _, _ => none

/-- First match wins when looking a key up in the ordered pair list. -/
def lookupKey (k : List Nat) : List (List Nat × Expr) → Option Expr
  | [] => none
  | (k2, v) :: r => if k2 = k then some v else lookupKey k r

def wexpr_Expression_mapValueForKey : Option Expr → List Nat → Option Expr
  | some (.map ps), k => lookupKey k ps
  | _, _ => none

/-! ## Textual parser

Modelled from the spec (section 4.D): the implementation file
`Private/Expression.c` is not in the source snapshot.  The parser is
byte-oriented; whitespace is space, tab, CR, LF; a semicolon opens a line
comment or, if followed by the three bytes of the block opener, a block
comment; atoms are maximal runs outside the reserved set; the atom equal
to the four bytes of the null literal yields Null; references are bound in
a table scoped to the parse call and expanded by deep copy.  Failure
carries an error code and the length of the remaining input at the point
of failure, from which the 1-based line and column are computed. -/

/-- Whitespace bytes: space, tab, CR, LF. -/
def isWsChar (c : Nat) : Bool :=
  c == 32 || c == 9 || c == 13 || c == 10

/-- The reserved byte set of the spec, in ASCII codes. -/
def isReservedChar (c : Nat) : Bool :=
  c == 40 || c == 41 || c == 35 || c == 64 || c == 34 ||
  c == 60 || c == 62 || c == 59 || c == 91 || c == 93 || c == 42

/-- The bytes of the null literal. -/
def nullAtom : List Nat := [110, 117, 108, 108]

/-- Skip whitespace and comments between tokens: a structural scanner
with three modes.  Mode 0 reads whitespace; a semicolon followed by the
three block-opener bytes enters mode 2 (block comment, scanning for the
closing three bytes), a bare semicolon enters mode 1 (line comment,
scanning for the newline); any other byte stops the scan. -/
def skipWsM : Nat → List Nat → List Nat
  | _, [] => []
  | 0, 59 :: 40 :: 45 :: 45 :: rest => skipWsM 2 rest
  | 0, 59 :: rest => skipWsM 1 rest
  | 0, c :: rest => if isWsChar c then skipWsM 0 rest else c :: rest
  | 1, 10 :: rest => skipWsM 0 rest
  | 1, _ :: rest => skipWsM 1 rest
  | 2, 45 :: 45 :: 41 :: rest => skipWsM 0 rest
  | 2, _ :: rest => skipWsM 2 rest
  | _ + 3, l => l

/-- Skip whitespace and comments, starting in normal mode. -/
def skipWs (l : List Nat) : List Nat := skipWsM 0 l

/-- Take a maximal run of atom bytes (neither whitespace nor reserved). -/
def takeAtom : List Nat → List Nat × List Nat
  | [] => ([], [])
  | c :: r =>
    if isWsChar c || isReservedChar c then ([], c :: r)
    else
      let p := takeAtom r
      (c :: p.1, p.2)

/-- Parse the body of a quoted string, after the opening quote.  Handles
the escapes for quote and backslash (and newline and tab); any other
escape is an error; a missing closing quote is an error. -/
def parseQuoted : List Nat → Except (ErrorCode × Nat) (List Nat × List Nat)
  | [] => .error (.stringMissingEndingQuote, 0)
  | c :: r =>
    if c == 34 then .ok ([], r)
    else if c == 92 then
      match r with
      | [] => .error (.stringMissingEndingQuote, 0)
      | e :: r2 =>
        match (if e == 34 then some 34 else if e == 92 then some 92
               else if e == 110 then some 10 else if e == 116 then some 9
               else Option.none : Option Nat) with
        | some ch =>
          match parseQuoted r2 with
          | .ok (s, rest) => .ok (ch :: s, rest)
          | .error err => .error err
        | none => .error (.invalidStringEscape, (e :: r2).length)
    else
      match parseQuoted r with
      | .ok (s, rest) => .ok (c :: s, rest)
      | .error err => .error err

/-- Take bytes up to (excluding) the first occurrence of `stop`, consuming
it; `none` when `stop` never occurs. -/
def takeUntilByte (stop : Nat) : List Nat → Option (List Nat × List Nat)
  | [] => none
  | c :: r =>
    if c == stop then some ([], r)
    else
      match takeUntilByte stop r with
      | some (s, rest) => some (c :: s, rest)
      | none => none

/-- Keep the first occurrence of every map key, dropping later duplicates
(the spec: the first occurrence wins on conflict). -/
def dedupKeys : List (List Nat × Expr) → List (List Nat × Expr)
  | [] => []
  | (k, v) :: r => (k, v) :: (dedupKeys r).filter (fun p => !(p.1 == k))

mutual

/-- Parse one expression from the input (after skipping whitespace),
threading the reference table.  The fuel argument only bounds recursion
depth; the top-level entry point passes enough for any input. -/
def parseExpr : Nat → List Nat → List (List Nat × Expr) →
    Except (ErrorCode × Nat) (Expr × List Nat × List (List Nat × Expr))
  | 0, l, _ => .error (.emptyString, l.length)
  | fuel + 1, l, tbl =>
    match skipWs l with
    | [] => .error (.emptyString, 0)
    | c :: r =>
      if c == 35 then
        match r with
        | 40 :: r2 =>
          match parseArraySeq fuel r2 tbl with
          | .ok (xs, rest, tbl2) => .ok (.array xs, rest, tbl2)
          | .error err => .error err
        | _ => .error (.arrayMissingEndParen, r.length)
      else if c == 64 then
        match r with
        | 40 :: r2 =>
          match parseMapSeq fuel r2 tbl with
          | .ok (ps, rest, tbl2) => .ok (.map (dedupKeys ps), rest, tbl2)
          | .error err => .error err
        | _ => .error (.mapMissingEndParen, r.length)
      else if c == 34 then
        match parseQuoted r with
        | .ok (s, rest) => .ok (.value s, rest, tbl)
        | .error err => .error err
      else if c == 60 then
        match takeUntilByte 62 r with
        | some (s, rest) =>
          match b64Decode s with
          | some bytes => .ok (.binaryData bytes, rest, tbl)
          | none => .error (.binaryDataInvalidBase64, r.length + 1)
        | none => .error (.binaryDataNoEnding, r.length + 1)
      else if c == 91 then
        match takeUntilByte 93 r with
        | some (name, rest) =>
          match parseExpr fuel rest tbl with
          | .ok (e, rest2, tbl2) => .ok (e, rest2, (name, e) :: tbl2)
          | .error err => .error err
        | none => .error (.referenceMissingEndBracket, r.length + 1)
      else if c == 42 then
        match r with
        | 91 :: r2 =>
          match takeUntilByte 93 r2 with
          | some (name, rest) =>
            match lookupKey name tbl with
            | some e => .ok (e, rest, tbl)
            | none => .error (.referenceUnknownReference, r.length + 1)
          | none => .error (.referenceInsertMissingEnd, r.length + 1)
        | _ => .error (.referenceInsertMissingEnd, r.length)
      else if isReservedChar c then
        .error (.emptyString, r.length + 1)
      else
        let p := takeAtom (c :: r)
        if p.1 == nullAtom then .ok (.null, p.2, tbl)
        else .ok (.value p.1, p.2, tbl)

/-- Parse the space-separated elements of an array up to the closing
parenthesis. -/
def parseArraySeq : Nat → List Nat → List (List Nat × Expr) →
    Except (ErrorCode × Nat) (List Expr × List Nat × List (List Nat × Expr))
  | 0, l, _ => .error (.emptyString, l.length)
  | fuel + 1, l, tbl =>
    match skipWs l with
    | [] => .error (.arrayMissingEndParen, 0)
    | c :: r =>
      if c == 41 then .ok ([], r, tbl)
      else
        match parseExpr fuel (c :: r) tbl with
        | .ok (e, rest, tbl2) =>
          match parseArraySeq fuel rest tbl2 with
          | .ok (xs, rest2, tbl3) => .ok (e :: xs, rest2, tbl3)
          | .error err => .error err
        | .error err => .error err

/-- Parse the key/value pairs of a map up to the closing parenthesis.
A non-Value key, or a closing parenthesis right after a key (an odd pair
count), is the key-must-be-a-value error per the spec. -/
def parseMapSeq : Nat → List Nat → List (List Nat × Expr) →
    Except (ErrorCode × Nat) (List (List Nat × Expr) × List Nat × List (List Nat × Expr))
  | 0, l, _ => .error (.emptyString, l.length)
  | fuel + 1, l, tbl =>
    match skipWs l with
    | [] => .error (.mapMissingEndParen, 0)
    | c :: r =>
      if c == 41 then .ok ([], r, tbl)
      else
        match parseExpr fuel (c :: r) tbl with
        | .ok (k, rest, tbl2) =>
          match k with
          | .value ks =>
            match skipWs rest with
            | [] => .error (.mapNoValue, 0)
            | c2 :: r2 =>
              if c2 == 41 then .error (.mapKeyMustBeAValue, r2.length + 1)
              else
                match parseExpr fuel (c2 :: r2) tbl2 with
                | .ok (v, rest2, tbl3) =>
                  match parseMapSeq fuel rest2 tbl3 with
                  | .ok (ps, rest3, tbl4) => .ok ((ks, v) :: ps, rest3, tbl4)
                  | .error err => .error err
                | .error err => .error err
          | _ => .error (.mapKeyMustBeAValue, r.length + 1)
        | .error err => .error err

end

/-- Parse a whole document: optional leading whitespace, at most one
expression, optional trailing whitespace.  An empty or whitespace-only
document yields an Invalid expression with no error; trailing data is an
error. -/
def parseDocBytes (l : List Nat) : Except (ErrorCode × Nat) Expr :=
  match skipWs l with
  | [] => .ok .invalid
  | s =>
    match parseExpr (l.length + 1) s [] with
    | .ok (e, rest, _) =>
      match skipWs rest with
      | [] => .ok e
      | rem => .error (.extraDataAfterParsingRoot, rem.length)
    | .error err => .error err

/-- The 1-based line of a byte offset: one plus the newlines before it. -/
def lineOfOffset (l : List Nat) (off : Nat) : Nat :=
  1 + (l.take off).count 10

/-- The 1-based column of a byte offset: one plus the bytes since the last
newline before it. -/
def colOfOffset (l : List Nat) (off : Nat) : Nat :=
  1 + ((l.take off).reverse.takeWhile (fun c => !(c == 10))).length

/-- Modelled from the spec: a short human message per error kind (the
original C message strings are not in the source snapshot). -/
def messageFor : ErrorCode → String
  | .none => ""
  | .invalidUTF8 => "Invalid UTF8"
  | .stringMissingEndingQuote => "String missing ending quote"
  | .invalidStringEscape => "Invalid string escape"
  | .mapKeyMustBeAValue => "Map key must be a value"
  | .mapNoValue => "Map missing value"
  | .mapMissingEndParen => "Map missing ending paren"
  | .arrayMissingEndParen => "Array missing ending paren"
  | .referenceMissingEndBracket => "Reference missing end bracket"
  | .referenceInsertMissingEnd => "Reference insert missing end"
  | .referenceUnknownReference => "Unknown reference"
  | .binaryDataNoEnding => "Binary data missing ending"
  | .binaryDataInvalidBase64 => "Binary data invalid base64"
  | .extraDataAfterParsingRoot => "Extra data after parsing root"
  | .emptyString => "Empty string"
  | .binaryInvalidHeader => "Invalid binary header"
  | .binaryUnknownVersion => "Unknown binary version"
  | .binaryMultipleExpressions => "Multiple binary expressions"
  | .binaryChunkOverflow => "Binary chunk overflow"
  | .binaryUnknownType => "Binary chunk unknown type"
  | .binaryChunkNotMap => "Binary chunk not a map"

/-- The library entry point `wexpr_Expression_createFromLengthString`:
returns the expression (or a null pointer) together with the out-parameter
error; textual errors carry a 1-based line and column computed by scanning
newlines up to the failure offset. -/
def wexpr_Expression_createFromLengthString (l : List Nat) : Option Expr × WexprError :=
  match parseDocBytes l with
  | .ok e => (some e, errorInit)
  | .error (code, remaining) =>
    let off := l.length - remaining
    (none, ⟨code, lineOfOffset l off, colOfOffset l off, messageFor code⟩)

/-! ## Textual writer

Modelled from the spec (section 4.E): minified mode separates tokens with
single spaces; human-readable mode puts each array element and each map
pair on its own line, indented by one tab per nesting level, with the
closer preceded by a newline and the outer indent.  A Value string is
re-quoted exactly when it is empty or contains a reserved or whitespace
byte; quotes and backslashes are escaped.  The writer output for an
Invalid expression is empty (the spec leaves Invalid unwritten; empty
output is the choice consistent with its own round-trip requirement,
since an empty document parses back to Invalid). -/

/-- A Value string must be quoted when written. -/
def quoteNeeded (s : List Nat) : Bool :=
  s.isEmpty || s.any (fun c => isWsChar c || isReservedChar c)

/-- Escape quote and backslash bytes inside a quoted string. -/
def escapeStr : List Nat → List Nat
  | [] => []
  | c :: r =>
    (if c == 34 then [92, 34] else if c == 92 then [92, 92] else [c]) ++ escapeStr r

/-- Write a Value string, quoting when needed. -/
def writeVal (s : List Nat) : List Nat :=
  if quoteNeeded s then 34 :: (escapeStr s ++ [34]) else s

/-- An indent of tab bytes. -/
def tabs (n : Nat) : List Nat := List.replicate n 9

/-- What precedes a container child: the child indent (human-readable) or
one space (minified). -/
def childPre (hr : Bool) (ind : Nat) : List Nat :=
  if hr then tabs (ind + 1) else [32]

/-- What follows a container child: a newline (human-readable) or nothing
(minified). -/
def childPost (hr : Bool) : List Nat :=
  if hr then [10] else []

/-- A container opener tail: newline in human-readable mode. -/
def openTail (hr : Bool) : List Nat :=
  if hr then [10] else []

/-- A container closer: outer indent and parenthesis (human-readable) or
space and parenthesis (minified). -/
def closeParen (hr : Bool) (ind : Nat) : List Nat :=
  if hr then tabs ind ++ [41] else [32, 41]

mutual

/-- Serialize one expression; `hr` selects human-readable mode and `ind`
is the current indent level. -/
def writeExpr (hr : Bool) (ind : Nat) : Expr → List Nat
  | .invalid => []
  | .null => nullAtom
  | .value s => writeVal s
  | .binaryData b => 60 :: (b64Encode b ++ [62])
  | .array xs => 35 :: 40 :: (openTail hr ++ writeArraySeq hr ind xs ++ closeParen hr ind)
  | .map ps => 64 :: 40 :: (openTail hr ++ writeMapSeq hr ind ps ++ closeParen hr ind)

/-- Serialize array elements. -/
def writeArraySeq (hr : Bool) (ind : Nat) : List Expr → List Nat
  | [] => []
  | x :: r => childPre hr ind ++ writeExpr hr (ind + 1) x ++ childPost hr ++ writeArraySeq hr ind r

/-- Serialize map pairs: key, one space, value. -/
def writeMapSeq (hr : Bool) (ind : Nat) : List (List Nat × Expr) → List Nat
  | [] => []
  | (k, v) :: r =>
    childPre hr ind ++ writeVal k ++ 32 :: (writeExpr hr (ind + 1) v ++ childPost hr ++ writeMapSeq hr ind r)

end

/-- The library entry point `wexpr_Expression_createStringRepresentation`:
serialize with a starting indent; the flag selects human-readable mode. -/
def wexpr_Expression_createStringRepresentation (e : Expr) (ind : Nat) (hr : Bool) : List Nat :=
  writeExpr hr ind e

/-! ## Binary chunk codec

The encoder is modelled from spec section 4.F and the decoder from spec
section 4.G; `Private/Expression.c` is not in the source snapshot.  A
chunk is a big-endian uint32 size, one type byte, and the payload; the
size counts the payload bytes (as the concrete scenario 6 of the spec and
the advancing rule of the tool driver both fix).  Binary-path errors are
represented by their code alone; the driver wraps them with zero line and
column. -/

/-- Big-endian bytes of a 32-bit value (the `wexpr_uint32ToBig` write). -/
def uint32BEBytes (n : Nat) : List Nat :=
  [n / 2 ^ 24 % 256, n / 2 ^ 16 % 256, n / 2 ^ 8 % 256, n % 256]

/-- Read a big-endian uint32 from the first four bytes of a list, missing
bytes read as zero (the `wexpr_bigUInt32ToNative` read). -/
def readBEU32 (l : List Nat) : Nat :=
  l.getD 0 0 * 2 ^ 24 + l.getD 1 0 * 2 ^ 16 + l.getD 2 0 * 2 ^ 8 + l.getD 3 0

mutual

/-- Modelled from the spec: encode one expression chunk, recursively. -/
def encodeChunk : Expr → List Nat
  | .invalid => uint32BEBytes 0 ++ [0]
  | .null => uint32BEBytes 0 ++ [0]
  | .value s => uint32BEBytes s.length ++ 1 :: s
  | .binaryData b => uint32BEBytes b.length ++ 4 :: b
  | .array xs =>
    let payload := encodeChunkSeq xs
    uint32BEBytes payload.length ++ 2 :: payload
  | .map ps =>
    let payload := encodeMapChunkSeq ps
    uint32BEBytes payload.length ++ 3 :: payload

/-- Encode the chunks of the children of an array. -/
def encodeChunkSeq : List Expr → List Nat
  | [] => []
  | x :: r => encodeChunk x ++ encodeChunkSeq r

/-- Encode the key and value chunks of the pairs of a map; key chunks are
Value-typed. -/
def encodeMapChunkSeq : List (List Nat × Expr) → List Nat
  | [] => []
  | (k, v) :: r => encodeChunk (.value k) ++ encodeChunk v ++ encodeMapChunkSeq r

end

mutual

/-- Modelled from the spec: decode exactly one chunk from the byte range.
The declared size must not overrun the range; the type byte must be in
the known range; Array payloads are chunk sequences; Map payloads are
even-length chunk sequences with Value-typed key chunks. -/
def decodeChunk : Nat → List Nat → Except ErrorCode Expr
  | 0, _ => .error .binaryChunkOverflow
  | fuel + 1, l =>
    if l.length < 5 then .error .binaryChunkOverflow
    else
      let size := readBEU32 l
      let ty := l.getD 4 0
      if size + 5 > l.length then .error .binaryChunkOverflow
      else if ty == 0 then .ok .null
      else if ty == 1 then .ok (.value ((l.drop 5).take size))
      else if ty == 4 then .ok (.binaryData ((l.drop 5).take size))
      else if ty == 2 then
        match decodeChunkSeq fuel ((l.drop 5).take size) with
        | .ok xs => .ok (.array xs)
        | .error err => .error err
      else if ty == 3 then
        match decodeMapChunkSeq fuel ((l.drop 5).take size) with
        | .ok ps => .ok (.map ps)
        | .error err => .error err
      else .error .binaryUnknownType

/-- Decode a sequence of sibling chunks until the range is exhausted. -/
def decodeChunkSeq : Nat → List Nat → Except ErrorCode (List Expr)
  | 0, _ => .error .binaryChunkOverflow
  | fuel + 1, l =>
    if l.isEmpty then .ok []
    else
      let size := readBEU32 l
      match decodeChunk fuel (l.take (size + 5)) with
      | .ok e =>
        match decodeChunkSeq fuel (l.drop (size + 5)) with
        | .ok xs => .ok (e :: xs)
        | .error err => .error err
      | .error err => .error err

/-- Decode the pair chunks of a map payload: key chunk (must be a Value),
then value chunk; an odd chunk count is a map-shape error. -/
def decodeMapChunkSeq : Nat → List Nat → Except ErrorCode (List (List Nat × Expr))
  | 0, _ => .error .binaryChunkOverflow
  | fuel + 1, l =>
    if l.isEmpty then .ok []
    else
      let ksize := readBEU32 l
      match decodeChunk fuel (l.take (ksize + 5)) with
      | .ok (.value ks) =>
        let l2 := l.drop (ksize + 5)
        if l2.isEmpty then .error .binaryChunkNotMap
        else
          let vsize := readBEU32 l2
          match decodeChunk fuel (l2.take (vsize + 5)) with
          | .ok v =>
            match decodeMapChunkSeq fuel (l2.drop (vsize + 5)) with
            | .ok ps => .ok ((ks, v) :: ps)
            | .error err => .error err
          | .error err => .error err
      | .ok _ => .error .binaryChunkNotMap
      | .error err => .error err

end

/-- The library entry point `wexpr_Expression_createFromBinaryChunk` on a
byte range. -/
def wexpr_Expression_createFromBinaryChunk (l : List Nat) : Except ErrorCode Expr :=
  decodeChunk (l.length + 1) l

/-! ## Tool driver

Translated from `src/WexprTool/Private/Application.cpp` (main, lines
141..331): read all input; if the first byte is the binary sentinel,
validate the 20-byte header and scan the top-level chunk sequence;
otherwise parse as text; then dispatch on the command.  Out-of-range
reads of the C loop (undefined behaviour in the original) are modelled as
reading zero bytes. -/

/-- The 8 magic bytes of the binary header. -/
def magicBytes : List Nat := [0x83, 66, 87, 69, 88, 80, 82, 10]

/-- The full 20-byte header the driver writes and accepts: magic, version
one big-endian, eight reserved zero bytes. -/
def fileHeader20 : List Nat := magicBytes ++ [0, 0, 0, 1] ++ List.replicate 8 0

/-- The chunk scan loop of Application.cpp lines 208..238: walk the
top-level chunks from `curPos`; a chunk with a known type code is decoded
when no expression has been built yet and is the multiple-expressions
error otherwise (stopping the loop); any other type code is skipped; each
step advances by the declared size plus five. -/
def scanChunks (bytes : List Nat) (curPos : Nat) (expr : Option Expr) (err : WexprError) :
    Option Expr × WexprError :=
  if h : curPos < bytes.length then
    let size := readBEU32 (bytes.drop curPos)
    let ty := (bytes.drop curPos).getD 4 0
    if ty ≤ 4 then
      if expr.isSome then
        (expr, ⟨.binaryMultipleExpressions, 0, 0, "Found multiple expression chunks"⟩)
      else
        match wexpr_Expression_createFromBinaryChunk ((bytes.drop curPos).take (size + 5)) with
        | .ok e => scanChunks bytes (curPos + 5 + size) (some e) err
        | .error code => scanChunks bytes (curPos + 5 + size) none ⟨code, 0, 0, messageFor code⟩
    else
      scanChunks bytes (curPos + 5 + size) expr err
  else (expr, err)
termination_by bytes.length - curPos
decreasing_by
  · omega
  · omega
  · omega

/-- The input processing of Application.cpp lines 157..249: binary-header
validation and chunk scan when the first byte is the sentinel, textual
parse otherwise.  Returns the expression (null pointer as `none`) and the
out-parameter error. -/
def processInput (input : List Nat) : Option Expr × WexprError :=
  if input.length ≥ 1 ∧ input.getD 0 0 = 0x83 then
    if input.length < 20 then
      (none, ⟨.binaryInvalidHeader, 0, 0, "Invalid binary header - not big enough"⟩)
    else if input.take 8 ≠ magicBytes then
      (none, ⟨.binaryInvalidHeader, 0, 0, "Invalid binary header - invalid magic"⟩)
    else if (input.drop 8).take 4 ≠ [0, 0, 0, 1] then
      (none, ⟨.binaryUnknownVersion, 0, 0, "Invalid binary header - unknown version"⟩)
    else if (input.drop 12).take 8 ≠ List.replicate 8 0 then
      (none, ⟨.binaryInvalidHeader, 0, 0, "Invalid binary header - unknown reserved bits"⟩)
    else scanChunks input 20 none errorInit
  else
    wexpr_Expression_createFromLengthString input

/-- The four commands of the tool. -/
inductive Command where
  | validate | humanReadable | mini | binary
deriving DecidableEq

/-- What the driver run produces: bytes written to the output, lines
written to stderr, and the process exit code. -/
structure ToolResult where
  stdout : List Nat
  stderrLines : List String
  exitCode : Nat
deriving DecidableEq

/-- The input path as printed in error messages: stdin is spelled out. -/
def renderInputPath (p : String) : String :=
  if p = "-" then "(stdin)" else p

/-- The driver dispatch of Application.cpp lines 251..331: on any error,
validate prints the false line and everything else prints the two stderr
lines, both with a failing exit code; with no expression the same split
applies; otherwise validate prints the true line and the other commands
print the writer or encoder output, with exit code zero. -/
def runTool (cmd : Command) (inputPath : String) (input : List Nat) : ToolResult :=
  let r := processInput input
  let err := r.2
  if err.code ≠ .none then
    if cmd = .validate then ⟨strBytes "false\n", [], 1⟩
    else
      ⟨[], ["WexprTool: Error occurred with wexpr:",
        "WexprTool: " ++ renderInputPath inputPath ++ ":" ++ toString err.line ++ ":" ++
          toString err.column ++ ": " ++ err.message], 1⟩
  else
    match r.1 with
    | none =>
      if cmd = .validate then ⟨strBytes "false\n", [], 1⟩
      else ⟨[], ["WexprTool: Got an empty expression back"], 1⟩
    | some e =>
      match cmd with
      | .validate => ⟨strBytes "true\n", [], 0⟩
      | .humanReadable => ⟨wexpr_Expression_createStringRepresentation e 0 true, [], 0⟩
      | .mini => ⟨wexpr_Expression_createStringRepresentation e 0 false, [], 0⟩
      | .binary => ⟨fileHeader20 ++ encodeChunk e, [], 0⟩

/-! ## Round-trip predicates

Instruments for the writer/parser round-trip: what byte may follow a
written expression, which trees the parser can produce, which trees
contain no atom spelled like the null literal, and a fuel measure
sufficient to parse a written tree. -/

/-- What may follow an expression in parser input so that an unquoted atom
does not run on: nothing, or a whitespace or reserved byte. -/
def stopB : List Nat → Bool
  | [] => true
  | c :: _ => isWsChar c || isReservedChar c

/-- Map keys are pairwise distinct (first components of the pair list). -/
def distinctKeysB : List (List Nat × Expr) → Bool
  | [] => true
  | (k, _) :: r => !(r.any (fun p => p.1 == k)) && distinctKeysB r

mutual

/-- The shape every tree built by the parser has: no Invalid node, binary
payloads are bytes, map keys pairwise distinct. -/
def rangeB : Expr → Bool
  | .invalid => false
  | .null => true
  | .value _ => true
  | .binaryData b => b.all (fun x => x < 256)
  | .array xs => rangeBList xs
  | .map ps => rangeBPairs ps && distinctKeysB ps

def rangeBList : List Expr → Bool
  | [] => true
  | x :: r => rangeB x && rangeBList r

def rangeBPairs : List (List Nat × Expr) → Bool
  | [] => true
  | (_, v) :: r => rangeB v && rangeBPairs r

end

mutual

/-- No Value node and no map key spelled exactly like the null literal
(such an atom re-parses as Null, breaking the round-trip). -/
def noNullB : Expr → Bool
  | .invalid => true
  | .null => true
  | .value s => !(s == nullAtom)
  | .binaryData _ => true
  | .array xs => noNullBList xs
  | .map ps => noNullBPairs ps

def noNullBList : List Expr → Bool
  | [] => true
  | x :: r => noNullB x && noNullBList r

def noNullBPairs : List (List Nat × Expr) → Bool
  | [] => true
  | (k, v) :: r => !(k == nullAtom) && noNullB v && noNullBPairs r

end

mutual

/-- Fuel sufficient for the parser to read back one written expression. -/
def parseFuelK : Expr → Nat
  | .invalid => 1
  | .null => 1
  | .value _ => 1
  | .binaryData _ => 1
  | .array xs => 1 + parseFuelKA xs
  | .map ps => 1 + parseFuelKM ps

/-- Fuel sufficient to read back a written array element sequence. -/
def parseFuelKA : List Expr → Nat
  | [] => 1
  | x :: r => 1 + parseFuelK x + parseFuelKA r

/-- Fuel sufficient to read back a written map pair sequence. -/
def parseFuelKM : List (List Nat × Expr) → Nat
  | [] => 1
  | (_, v) :: r => 2 + parseFuelK v + parseFuelKM r

end

/-- Every expression stored in the reference table is parser-shaped. -/
def tblOK (tbl : List (List Nat × Expr)) : Bool :=
  tbl.all (fun p => rangeB p.2)

/-! ## Theorems -/

/-! ### Helper lemmas about the binary framing -/

theorem readBEU32_eq_one_iff (l : List Nat) (h : 4 ≤ l.length) :
    readBEU32 l = 1 ↔ l.take 4 = [0, 0, 0, 1] := by
  match l, h with
  | a :: b :: c :: d :: rest, _ =>
    simp only [readBEU32, List.getD_cons_zero, List.getD_cons_succ, List.take_succ_cons,
      List.take_zero, List.cons.injEq, and_true]
    constructor
    · intro h1
      refine ⟨by omega, by omega, by omega, by omega⟩
    · rintro ⟨rfl, rfl, rfl, rfl⟩
      rfl

theorem decodeChunk_ok_type (f : Nat) (l : List Nat) (e : Expr)
    (h : decodeChunk f l = .ok e) : l.getD 4 0 ≤ 4 := by
  match f with
  | 0 => simp [decodeChunk] at h
  | f + 1 =>
    rw [decodeChunk] at h
    by_cases h5 : l.length < 5
    · rw [if_pos h5] at h; exact absurd h (by simp)
    rw [if_neg h5] at h
    by_cases hov : readBEU32 l + 5 > l.length
    · rw [if_pos hov] at h; exact absurd h (by simp)
    rw [if_neg hov] at h
    by_cases h0 : l.getD 4 0 = 0
    · omega
    by_cases h1 : l.getD 4 0 = 1
    · omega
    by_cases h2 : l.getD 4 0 = 2
    · omega
    by_cases h3 : l.getD 4 0 = 3
    · omega
    by_cases h4 : l.getD 4 0 = 4
    · omega
    rw [if_neg (by simpa using h0), if_neg (by simpa using h1), if_neg (by simpa using h4),
      if_neg (by simpa using h2), if_neg (by simpa using h3)] at h
    exact absurd h (by simp)

/-- One step of the chunk scan: an unknown type code is skipped, advancing
past the chunk by its declared size, with the state untouched. -/
theorem scanChunks_skip_step (bytes : List Nat) (p : Nat) (expr : Option Expr)
    (err : WexprError) (hp : p < bytes.length) (hty : 4 < (bytes.drop p).getD 4 0) :
    scanChunks bytes p expr err =
      scanChunks bytes (p + 5 + readBEU32 (bytes.drop p)) expr err := by
  rw [scanChunks, dif_pos hp, if_neg (by omega)]

/-- One step of the chunk scan: a known type code with no expression built
yet, whose chunk decodes, builds the expression and advances. -/
theorem scanChunks_decode_step (bytes : List Nat) (p : Nat) (err : WexprError) (e : Expr)
    (hp : p < bytes.length) (hty : (bytes.drop p).getD 4 0 ≤ 4)
    (hdec : wexpr_Expression_createFromBinaryChunk
      ((bytes.drop p).take (readBEU32 (bytes.drop p) + 5)) = .ok e) :
    scanChunks bytes p none err =
      scanChunks bytes (p + 5 + readBEU32 (bytes.drop p)) (some e) err := by
  rw [scanChunks, dif_pos hp, if_pos hty]
  simp only [Option.isSome_none, Bool.false_eq_true, if_false]
  rw [hdec]

/-- The chunk scan with an expression already built stops with the
multiple-expressions error as soon as it meets a chunk with a known type
code. -/
theorem scanChunks_second_expr (bytes : List Nat) (p : Nat) (e : Expr) (err : WexprError)
    (hp : p < bytes.length) (hty : (bytes.drop p).getD 4 0 ≤ 4) :
    scanChunks bytes p (some e) err =
      (some e, ⟨.binaryMultipleExpressions, 0, 0, "Found multiple expression chunks"⟩) := by
  rw [scanChunks, dif_pos hp, if_pos hty]
  simp

/-- The twenty header bytes as an explicit list. -/
theorem fileHeader20_eq :
    fileHeader20 = [0x83, 66, 87, 69, 88, 80, 82, 10, 0, 0, 0, 1, 0, 0, 0, 0, 0, 0, 0, 0] := rfl

/-- With a valid header in front, input processing is exactly the chunk
scan from offset twenty. -/
theorem fileHeader20_length : fileHeader20.length = 20 := rfl

theorem processInput_fileHeader (rest : List Nat) :
    processInput (fileHeader20 ++ rest) =
      scanChunks (fileHeader20 ++ rest) 20 none errorInit := by
  have hc : (fileHeader20 ++ rest).length ≥ 1 ∧ (fileHeader20 ++ rest).getD 0 0 = 0x83 := by
    constructor
    · simp [fileHeader20_eq]
    · rw [List.getD_append _ _ _ _ (by simp [fileHeader20_eq])]
      rfl
  have h20 : ¬ (fileHeader20 ++ rest).length < 20 := by
    simp [fileHeader20_eq]
  have hm : (fileHeader20 ++ rest).take 8 = magicBytes := by
    rw [List.take_append_of_le_length (by simp [fileHeader20_eq])]
    rfl
  have hv : ((fileHeader20 ++ rest).drop 8).take 4 = [0, 0, 0, 1] := by
    rw [List.drop_append_of_le_length (by simp [fileHeader20_eq]),
      List.take_append_of_le_length (by simp [fileHeader20_eq])]
    rfl
  have hr : ((fileHeader20 ++ rest).drop 12).take 8 = List.replicate 8 0 := by
    rw [List.drop_append_of_le_length (by simp [fileHeader20_eq]),
      List.take_append_of_le_length (by simp [fileHeader20_eq])]
    rfl
  rw [processInput, if_pos hc, if_neg h20, if_neg (not_not_intro hm),
    if_neg (not_not_intro hv), if_neg (not_not_intro hr)]

/-! ### C3, C9: header validation -/

/-- Claim C3: with the binary sentinel first and at least twenty bytes, a
magic mismatch is the invalid-header error; then a version other than one
(as a big-endian uint32 at offset 8) is the unknown-version error; then a
nonzero reserved byte at offsets 12..19 is the invalid-header error.  In
each case no expression is produced and line and column are zero. -/
theorem binary_bad_header_rejected (input : List Nat)
    (hfirst : input.getD 0 0 = 0x83) (hlen : 20 ≤ input.length) :
    (input.take 8 ≠ magicBytes →
      processInput input =
        (none, ⟨.binaryInvalidHeader, 0, 0, "Invalid binary header - invalid magic"⟩)) ∧
    (input.take 8 = magicBytes → readBEU32 (input.drop 8) ≠ 1 →
      processInput input =
        (none, ⟨.binaryUnknownVersion, 0, 0, "Invalid binary header - unknown version"⟩)) ∧
    (input.take 8 = magicBytes → readBEU32 (input.drop 8) = 1 →
      (input.drop 12).take 8 ≠ List.replicate 8 0 →
      processInput input =
        (none, ⟨.binaryInvalidHeader, 0, 0, "Invalid binary header - unknown reserved bits"⟩)) := by
  have hcond : input.length ≥ 1 ∧ input.getD 0 0 = 0x83 := ⟨by omega, hfirst⟩
  have hn20 : ¬ input.length < 20 := by omega
  have hv : readBEU32 (input.drop 8) = 1 ↔ (input.drop 8).take 4 = [0, 0, 0, 1] :=
    readBEU32_eq_one_iff _ (by simp; omega)
  refine ⟨?_, ?_, ?_⟩
  · intro h1
    rw [processInput, if_pos hcond, if_neg hn20, if_pos h1]
  · intro h1 h2
    rw [processInput, if_pos hcond, if_neg hn20, if_neg (not_not_intro h1),
      if_pos (by intro hcon; exact h2 (hv.mpr hcon))]
  · intro h1 h2 h3
    rw [processInput, if_pos hcond, if_neg hn20, if_neg (not_not_intro h1),
      if_neg (not_not_intro (hv.mp h2)), if_pos h3]

theorem binary_bad_header_rejected_witness :
    (((0x83 :: List.replicate 19 0).take 8 ≠ magicBytes →
      processInput (0x83 :: List.replicate 19 0) =
        (none, ⟨.binaryInvalidHeader, 0, 0, "Invalid binary header - invalid magic"⟩)) ∧
    ((0x83 :: List.replicate 19 0).take 8 = magicBytes →
      readBEU32 ((0x83 :: List.replicate 19 0).drop 8) ≠ 1 →
      processInput (0x83 :: List.replicate 19 0) =
        (none, ⟨.binaryUnknownVersion, 0, 0, "Invalid binary header - unknown version"⟩)) ∧
    ((0x83 :: List.replicate 19 0).take 8 = magicBytes →
      readBEU32 ((0x83 :: List.replicate 19 0).drop 8) = 1 →
      ((0x83 :: List.replicate 19 0).drop 12).take 8 ≠ List.replicate 8 0 →
      processInput (0x83 :: List.replicate 19 0) =
        (none, ⟨.binaryInvalidHeader, 0, 0, "Invalid binary header - unknown reserved bits"⟩))) :=
  binary_bad_header_rejected (0x83 :: List.replicate 19 0) (by decide) (by decide)

/-- Claim C9: with the binary sentinel first and fewer than twenty bytes
the driver reports the invalid-header error with zero line and column and
produces no expression. -/
theorem binary_short_input_rejected (input : List Nat)
    (hfirst : input.getD 0 0 = 0x83) (h1 : 1 ≤ input.length) (hlen : input.length < 20) :
    processInput input =
      (none, ⟨.binaryInvalidHeader, 0, 0, "Invalid binary header - not big enough"⟩) := by
  rw [processInput, if_pos ⟨h1, hfirst⟩, if_pos hlen]

theorem binary_short_input_rejected_witness :
    processInput [0x83] =
      (none, ⟨.binaryInvalidHeader, 0, 0, "Invalid binary header - not big enough"⟩) :=
  binary_short_input_rejected [0x83] (by decide) (by decide) (by decide)

theorem b64DecChar_encChar (s : Nat) (h : s < 64) : b64DecChar (b64EncChar s) = some s := by
  revert h; revert s; decide

theorem b64EncChar_ne_pad (s : Nat) (h : s < 64) : b64EncChar s ≠ 61 := by
  revert h; revert s; decide

theorem b64EncChar_out (s : Nat) (h : s < 64) : isB64OutByte (b64EncChar s) := by
  revert h; revert s; decide

theorem b64_roundtrip (l : List Nat) (h : ∀ x ∈ l, x < 256) :
    b64Decode (b64Encode l) = some l := by
  match l with
  | [] => rfl
  | [a] =>
    have ha : a < 256 := h a (by simp)
    simp only [b64Encode, b64Decode,
      b64DecChar_encChar (a / 4) (by omega), b64DecChar_encChar (a % 4 * 16) (by omega)]
    simp only [if_pos trivial, Option.some.injEq, List.cons.injEq, and_true]
    omega
  | [a, b] =>
    have ha : a < 256 := h a (by simp)
    have hb : b < 256 := h b (by simp)
    have hne : b64EncChar (b % 16 * 4) ≠ 61 := b64EncChar_ne_pad _ (by omega)
    simp only [b64Encode, b64Decode,
      b64DecChar_encChar (a / 4) (by omega),
      b64DecChar_encChar (a % 4 * 16 + b / 16) (by omega),
      b64DecChar_encChar (b % 16 * 4) (by omega)]
    simp only [if_neg hne, if_pos trivial, Option.some.injEq, List.cons.injEq, and_true]
    omega
  | a :: b :: c :: rest =>
    have ha : a < 256 := h a (by simp)
    have hb : b < 256 := h b (by simp)
    have hc : c < 256 := h c (by simp)
    have ih := b64_roundtrip rest (fun x hx => h x (by simp [hx]))
    have hne3 : b64EncChar (b % 16 * 4 + c / 64) ≠ 61 := b64EncChar_ne_pad _ (by omega)
    have hne4 : b64EncChar (c % 64) ≠ 61 := b64EncChar_ne_pad _ (by omega)
    simp only [b64Encode, b64Decode,
      b64DecChar_encChar (a / 4) (by omega),
      b64DecChar_encChar (a % 4 * 16 + b / 16) (by omega),
      b64DecChar_encChar (b % 16 * 4 + c / 64) (by omega),
      b64DecChar_encChar (c % 64) (by omega)]
    simp only [if_neg hne3, if_neg hne4]
    rw [ih]
    simp only [Option.some.injEq, List.cons.injEq, and_true]
    omega

theorem b64Encode_out (l : List Nat) (h : ∀ x ∈ l, x < 256) :
    ∀ c ∈ b64Encode l, isB64OutByte c := by
  match l with
  | [] => simp [b64Encode]
  | [a] =>
    have ha : a < 256 := h a (by simp)
    simp only [b64Encode]
    intro c hc
    simp only [List.mem_cons, List.not_mem_nil, or_false] at hc
    rcases hc with rfl | rfl | rfl | rfl
    · exact b64EncChar_out _ (by omega)
    · exact b64EncChar_out _ (by omega)
    · right; right; right; right; right; rfl
    · right; right; right; right; right; rfl
  | [a, b] =>
    have ha : a < 256 := h a (by simp)
    have hb : b < 256 := h b (by simp)
    simp only [b64Encode]
    intro c hc
    simp only [List.mem_cons, List.not_mem_nil, or_false] at hc
    rcases hc with rfl | rfl | rfl | rfl
    · exact b64EncChar_out _ (by omega)
    · exact b64EncChar_out _ (by omega)
    · exact b64EncChar_out _ (by omega)
    · right; right; right; right; right; rfl
  | a :: b :: c :: rest =>
    have ha : a < 256 := h a (by simp)
    have hb : b < 256 := h b (by simp)
    have hc : c < 256 := h c (by simp)
    have ih := b64Encode_out rest (fun x hx => h x (by simp [hx]))
    simp only [b64Encode]
    intro d hd
    simp only [List.mem_cons] at hd
    rcases hd with rfl | rfl | rfl | rfl | hd
    · exact b64EncChar_out _ (by omega)
    · exact b64EncChar_out _ (by omega)
    · exact b64EncChar_out _ (by omega)
    · exact b64EncChar_out _ (by omega)
    · exact ih d hd
termination_by l.length


/-! ### Token-level lemmas for the textual round-trip -/

theorem skipWs_ws_cons (c : Nat) (l : List Nat) (hw : isWsChar c = true) :
    skipWs (c :: l) = skipWs l := by
  simp only [isWsChar, Bool.or_eq_true, beq_iff_eq] at hw
  rcases hw with ((rfl | rfl) | rfl) | rfl <;> rfl

theorem skipWs_stop (c : Nat) (l : List Nat) (hw : isWsChar c = false) (h59 : c ≠ 59) :
    skipWs (c :: l) = c :: l := by
  rw [skipWs, skipWsM.eq_def]
  split <;> simp_all

theorem skipWs_append_ws (w l : List Nat) (hw : ∀ c ∈ w, isWsChar c = true) :
    skipWs (w ++ l) = skipWs l := by
  induction w with
  | nil => rfl
  | cons c r ih =>
    rw [List.cons_append, skipWs_ws_cons c _ (hw c (by simp))]
    exact ih (fun x hx => hw x (by simp [hx]))

theorem takeAtom_append (a rest : List Nat)
    (ha : ∀ c ∈ a, isWsChar c = false ∧ isReservedChar c = false)
    (hstop : stopB rest = true) :
    takeAtom (a ++ rest) = (a, rest) := by
  induction a with
  | nil =>
    cases rest with
    | nil => rfl
    | cons c r =>
      simp only [stopB] at hstop
      simp [takeAtom, hstop]
  | cons c a' ih =>
    have hc := ha c (by simp)
    simp only [List.cons_append, takeAtom, hc.1, hc.2, Bool.or_self, Bool.false_eq_true,
      if_false, List.append_eq]
    rw [ih (fun x hx => ha x (by simp [hx]))]

theorem parseQuoted_escape (s rest : List Nat) :
    parseQuoted (escapeStr s ++ (34 :: rest)) = .ok (s, rest) := by
  induction s with
  | nil =>
    rw [show escapeStr [] ++ (34 :: rest) = 34 :: rest from rfl, parseQuoted.eq_def]
    simp
  | cons c s' ih =>
    by_cases h34 : c = 34
    · subst h34
      rw [show escapeStr (34 :: s') ++ (34 :: rest) = 92 :: 34 :: (escapeStr s' ++ (34 :: rest))
        from by simp [escapeStr], parseQuoted.eq_def]
      simp [ih]
    by_cases h92 : c = 92
    · subst h92
      rw [show escapeStr (92 :: s') ++ (34 :: rest) = 92 :: 92 :: (escapeStr s' ++ (34 :: rest))
        from by simp [escapeStr], parseQuoted.eq_def]
      simp [ih]
    · rw [show escapeStr (c :: s') ++ (34 :: rest) = c :: (escapeStr s' ++ (34 :: rest))
        from by simp [escapeStr, h34, h92], parseQuoted.eq_def]
      simp [beq_iff_eq, h34, h92, ih]

theorem takeUntilByte_append (stop : Nat) (s rest : List Nat) (hs : ∀ c ∈ s, c ≠ stop) :
    takeUntilByte stop (s ++ stop :: rest) = some (s, rest) := by
  induction s with
  | nil => simp [takeUntilByte]
  | cons c s' ih =>
    have hcs : (c == stop) = false := by
      simp only [beq_eq_false_iff_ne, ne_eq]
      exact hs c (by simp)
    simp [takeUntilByte, hcs, ih (fun x hx => hs x (by simp [hx]))]

theorem dedupKeys_of_distinct (l : List (List Nat × Expr)) (h : distinctKeysB l = true) :
    dedupKeys l = l := by
  induction l with
  | nil => rfl
  | cons p r ih =>
    obtain ⟨k, v⟩ := p
    simp only [distinctKeysB, Bool.and_eq_true, Bool.not_eq_true'] at h
    rw [dedupKeys, ih h.2]
    congr 1
    apply List.filter_eq_self.mpr
    intro a ha
    have hall := List.any_eq_false.mp h.1
    simp only [Bool.not_eq_true']
    exact Bool.not_eq_true _ ▸ (by simpa using hall a ha)

theorem any_filter_false (f p : List Nat × Expr → Bool) (l : List (List Nat × Expr))
    (h : l.any f = false) : (l.filter p).any f = false := by
  induction l with
  | nil => rfl
  | cons a r ih =>
    simp only [List.any_cons, Bool.or_eq_false_iff] at h
    rw [List.filter]
    cases hp : p a with
    | true => simp [List.any_cons, h.1, ih h.2]
    | false => exact ih h.2

theorem distinctKeysB_filter (p : List Nat × Expr → Bool) (l : List (List Nat × Expr))
    (h : distinctKeysB l = true) : distinctKeysB (l.filter p) = true := by
  induction l with
  | nil => rfl
  | cons a r ih =>
    obtain ⟨k, v⟩ := a
    simp only [distinctKeysB, Bool.and_eq_true, Bool.not_eq_true'] at h
    rw [List.filter]
    cases hp : p (k, v) with
    | true =>
      simp only [distinctKeysB, Bool.and_eq_true, Bool.not_eq_true']
      exact ⟨any_filter_false _ p r h.1, ih h.2⟩
    | false => exact ih h.2

theorem distinctKeysB_dedupKeys (l : List (List Nat × Expr)) :
    distinctKeysB (dedupKeys l) = true := by
  induction l with
  | nil => rfl
  | cons a r ih =>
    obtain ⟨k, v⟩ := a
    rw [dedupKeys]
    simp only [distinctKeysB, Bool.and_eq_true, Bool.not_eq_true']
    constructor
    · apply List.any_eq_false.mpr
      intro x hx
      have := (List.mem_filter.mp hx).2
      simpa using this
    · exact distinctKeysB_filter _ _ ih

theorem rangeBPairs_filter (p : List Nat × Expr → Bool) (l : List (List Nat × Expr))
    (h : rangeBPairs l = true) : rangeBPairs (l.filter p) = true := by
  induction l with
  | nil => rfl
  | cons a r ih =>
    obtain ⟨k, v⟩ := a
    simp only [rangeBPairs, Bool.and_eq_true] at h
    rw [List.filter]
    cases hp : p (k, v) with
    | true =>
      simp only [rangeBPairs, Bool.and_eq_true]
      exact ⟨h.1, ih h.2⟩
    | false => exact ih h.2

theorem rangeBPairs_dedupKeys (l : List (List Nat × Expr)) (h : rangeBPairs l = true) :
    rangeBPairs (dedupKeys l) = true := by
  induction l with
  | nil => rfl
  | cons a r ih =>
    obtain ⟨k, v⟩ := a
    simp only [rangeBPairs, Bool.and_eq_true] at h
    rw [dedupKeys]
    simp only [rangeBPairs, Bool.and_eq_true]
    exact ⟨h.1, rangeBPairs_filter _ _ (ih h.2)⟩

theorem b64DecChar_lt (c s : Nat) (h : b64DecChar c = some s) : s < 64 := by
  unfold b64DecChar at h
  split_ifs at h <;> simp_all <;> omega

theorem b64Decode_bounds (l bytes : List Nat) (h : b64Decode l = some bytes) :
    ∀ x ∈ bytes, x < 256 := by
  match l with
  | [] =>
    simp [b64Decode] at h
    subst h
    simp
  | [a] => simp [b64Decode] at h
  | [a, b] => simp [b64Decode] at h
  | [a, b, c] => simp [b64Decode] at h
  | c1 :: c2 :: c3 :: c4 :: rest =>
    rw [b64Decode] at h
    cases hd1 : b64DecChar c1 with
    | none => rw [hd1] at h; simp at h
    | some s1 =>
    cases hd2 : b64DecChar c2 with
    | none => rw [hd1, hd2] at h; simp at h
    | some s2 =>
    rw [hd1, hd2] at h
    simp only at h
    have hs1 := b64DecChar_lt c1 s1 hd1
    have hs2 := b64DecChar_lt c2 s2 hd2
    by_cases h3 : c3 = 61
    · rw [if_pos h3] at h
      by_cases h4 : c4 = 61
      · rw [if_pos h4] at h
        by_cases hr : rest = []
        · rw [if_pos hr] at h
          simp at h
          subst h
          intro x hx
          simp at hx
          omega
        · rw [if_neg hr] at h; simp at h
      · rw [if_neg h4] at h; simp at h
    · rw [if_neg h3] at h
      cases hd3 : b64DecChar c3 with
      | none => rw [hd3] at h; simp at h
      | some s3 =>
      rw [hd3] at h
      simp only at h
      have hs3 := b64DecChar_lt c3 s3 hd3
      by_cases h4 : c4 = 61
      · rw [if_pos h4] at h
        by_cases hr : rest = []
        · rw [if_pos hr] at h
          simp at h
          subst h
          intro x hx
          simp at hx
          rcases hx with rfl | rfl <;> omega
        · rw [if_neg hr] at h; simp at h
      · rw [if_neg h4] at h
        cases hd4 : b64DecChar c4 with
        | none => rw [hd4] at h; simp at h
        | some s4 =>
        rw [hd4] at h
        simp only at h
        have hs4 := b64DecChar_lt c4 s4 hd4
        cases hrec : b64Decode rest with
        | none => rw [hrec] at h; simp at h
        | some t =>
        rw [hrec] at h
        simp at h
        subst h
        have ih := b64Decode_bounds rest t hrec
        intro x hx
        simp at hx
        rcases hx with rfl | rfl | rfl | hx
        · omega
        · omega
        · omega
        · exact ih x hx
termination_by l.length

theorem parseFuelK_pos (e : Expr) : 1 ≤ parseFuelK e := by
  cases e <;> simp [parseFuelK]

theorem parseFuelKA_pos (xs : List Expr) : 1 ≤ parseFuelKA xs := by
  match xs with
  | [] => simp [parseFuelKA]
  | x :: r =>
    simp only [parseFuelKA]
    omega

theorem parseFuelKM_pos (ps : List (List Nat × Expr)) : 1 ≤ parseFuelKM ps := by
  match ps with
  | [] => simp [parseFuelKM]
  | (k, v) :: r =>
    simp [parseFuelKM]
    omega

theorem writeVal_len_pos (s : List Nat) : 1 ≤ (writeVal s).length := by
  rw [writeVal]
  split
  · simp
  · rename_i hq
    simp only [quoteNeeded, Bool.or_eq_true, Bool.not_eq_true] at hq
    cases s with
    | nil => simp at hq
    | cons c r => simp

theorem closeParen_len_pos (hr : Bool) (ind : Nat) : 1 ≤ (closeParen hr ind).length := by
  cases hr <;> simp [closeParen, tabs]

theorem childPre_len_pos (hr : Bool) (ind : Nat) : 1 ≤ (childPre hr ind).length := by
  cases hr <;> simp [childPre, tabs]

theorem K_le_wlen : ∀ n,
    (∀ e, parseFuelK e ≤ n → rangeB e = true → ∀ hr ind,
      parseFuelK e ≤ (writeExpr hr ind e).length) ∧
    (∀ xs, parseFuelKA xs ≤ n → rangeBList xs = true → ∀ hr ind,
      parseFuelKA xs ≤ (writeArraySeq hr ind xs).length + (closeParen hr ind).length) ∧
    (∀ ps, parseFuelKM ps ≤ n → rangeBPairs ps = true → ∀ hr ind,
      parseFuelKM ps ≤ (writeMapSeq hr ind ps).length + (closeParen hr ind).length) := by
  intro n
  induction n with
  | zero =>
    refine ⟨fun e hK => absurd hK (by have := parseFuelK_pos e; omega),
      fun xs hK => absurd hK (by have := parseFuelKA_pos xs; omega),
      fun ps hK => absurd hK (by have := parseFuelKM_pos ps; omega)⟩
  | succ m ih =>
    obtain ⟨ihE, ihA, ihM⟩ := ih
    refine ⟨?_, ?_, ?_⟩
    · intro e hK hR hr ind
      match e with
      | .invalid => simp [rangeB] at hR
      | .null => simp [parseFuelK, writeExpr, nullAtom]
      | .value s =>
        have := writeVal_len_pos s
        simp only [parseFuelK, writeExpr]
        omega
      | .binaryData b =>
        simp [parseFuelK, writeExpr]
      | .array xs =>
        simp only [parseFuelK] at hK ⊢
        simp only [rangeB] at hR
        have hKA : parseFuelKA xs ≤ m := by omega
        have h1 := ihA xs hKA hR hr ind
        simp only [writeExpr, List.length_cons, List.length_append]
        omega
      | .map ps =>
        simp only [parseFuelK] at hK ⊢
        simp only [rangeB, Bool.and_eq_true] at hR
        have hKM : parseFuelKM ps ≤ m := by omega
        have h1 := ihM ps hKM hR.1 hr ind
        simp only [writeExpr, List.length_cons, List.length_append]
        omega
    · intro xs hK hR hr ind
      match xs with
      | [] =>
        have := closeParen_len_pos hr ind
        simp only [parseFuelKA, writeArraySeq, List.length_nil]
        omega
      | x :: r =>
        simp only [parseFuelKA] at hK ⊢
        simp only [rangeBList, Bool.and_eq_true] at hR
        have hpos := parseFuelKA_pos r
        have hpos2 := parseFuelK_pos x
        have h1 := ihE x (by omega) hR.1 hr (ind + 1)
        have h2 := ihA r (by omega) hR.2 hr ind
        have h3 := childPre_len_pos hr ind
        simp only [writeArraySeq, List.length_append]
        omega
    · intro ps hK hR hr ind
      match ps with
      | [] =>
        have := closeParen_len_pos hr ind
        simp only [parseFuelKM, writeMapSeq, List.length_nil]
        omega
      | (k, v) :: r =>
        simp only [parseFuelKM] at hK ⊢
        simp only [rangeBPairs, Bool.and_eq_true] at hR
        have hpos := parseFuelKM_pos r
        have hpos2 := parseFuelK_pos v
        have h1 := ihE v (by omega) hR.1 hr (ind + 1)
        have h2 := ihM r (by omega) hR.2 hr ind
        have h3 := childPre_len_pos hr ind
        have h4 := writeVal_len_pos k
        simp only [writeMapSeq, List.length_append, List.length_cons]
        omega

theorem writeExpr_head (hr : Bool) (ind : Nat) (e : Expr) (he : rangeB e = true) :
    ∃ c r, writeExpr hr ind e = c :: r ∧ isWsChar c = false ∧ c ≠ 59 ∧ c ≠ 41 := by
  match e with
  | .invalid => simp [rangeB] at he
  | .null => exact ⟨110, _, rfl, rfl, by omega, by omega⟩
  | .value s =>
    show ∃ c r, writeVal s = c :: r ∧ _
    rw [writeVal]
    split
    · exact ⟨34, _, rfl, rfl, by omega, by omega⟩
    · rename_i hq
      simp only [quoteNeeded, Bool.or_eq_true, not_or, Bool.not_eq_true] at hq
      cases s with
      | nil => simp at hq
      | cons c r =>
        have hc : isWsChar c = false ∧ isReservedChar c = false := by
          have := List.any_eq_false.mp hq.2 c (by simp)
          simp only [Bool.or_eq_true, not_or, Bool.not_eq_true] at this
          exact ⟨this.1, this.2⟩
        refine ⟨c, r, rfl, hc.1, ?_, ?_⟩
        · intro hcon
          subst hcon
          simp [isReservedChar] at hc
        · intro hcon
          subst hcon
          simp [isReservedChar] at hc
  | .binaryData b => exact ⟨60, _, rfl, rfl, by omega, by omega⟩
  | .array xs => exact ⟨35, _, rfl, rfl, by omega, by omega⟩
  | .map ps => exact ⟨64, _, rfl, rfl, by omega, by omega⟩

theorem tabs_ws (n : Nat) : ∀ c ∈ tabs n, isWsChar c = true := by
  intro c hc
  rw [tabs] at hc
  rw [List.eq_of_mem_replicate hc]
  rfl

theorem childPre_ws (hr : Bool) (ind : Nat) : ∀ c ∈ childPre hr ind, isWsChar c = true := by
  cases hr
  · intro c hc
    simp [childPre] at hc
    subst hc
    rfl
  · exact fun c hc => tabs_ws _ c (by simpa [childPre] using hc)

theorem childPost_ws (hr : Bool) : ∀ c ∈ childPost hr, isWsChar c = true := by
  cases hr
  · simp [childPost]
  · intro c hc
    simp [childPost] at hc
    subst hc
    rfl

theorem openTail_ws (hr : Bool) : ∀ c ∈ openTail hr, isWsChar c = true := by
  cases hr
  · simp [openTail]
  · intro c hc
    simp [openTail] at hc
    subst hc
    rfl

theorem skipWs_closeParen (hr : Bool) (ind : Nat) (rest : List Nat) :
    skipWs (closeParen hr ind ++ rest) = 41 :: rest := by
  cases hr
  · show skipWs (32 :: 41 :: rest) = 41 :: rest
    rw [skipWs_ws_cons 32 _ rfl, skipWs_stop 41 _ rfl (by omega)]
  · show skipWs ((tabs ind ++ [41]) ++ rest) = 41 :: rest
    rw [List.append_assoc, skipWs_append_ws _ _ (tabs_ws ind)]
    exact skipWs_stop 41 _ rfl (by omega)

theorem stopB_arrTail (hr : Bool) (ind : Nat) (r : List Expr) (rest : List Nat) :
    stopB (childPost hr ++ (writeArraySeq hr ind r ++ (closeParen hr ind ++ rest))) = true := by
  cases hr
  · cases r with
    | nil => rfl
    | cons y r' => rfl
  · rfl

theorem stopB_mapTail (hr : Bool) (ind : Nat) (r : List (List Nat × Expr)) (rest : List Nat) :
    stopB (childPost hr ++ (writeMapSeq hr ind r ++ (closeParen hr ind ++ rest))) = true := by
  cases hr
  · cases r with
    | nil => rfl
    | cons p r' =>
      obtain ⟨k, v⟩ := p
      rfl
  · rfl

theorem reserved_ne (c d : Nat) (hres : isReservedChar c = false)
    (hd : isReservedChar d = true) : (c == d) = false := by
  simp only [beq_eq_false_iff_ne, ne_eq]
  intro hcon
  subst hcon
  rw [hres] at hd
  exact Bool.false_ne_true hd

/-- The parser reads back exactly what the writer emitted: the main
round-trip induction, simultaneously for one expression, an array element
sequence and a map pair sequence, measured by the parse fuel bound. -/
theorem parse_writeExpr : ∀ n : Nat,
    (∀ e, parseFuelK e ≤ n → ∀ (hr : Bool) (ind f : Nat) (rest : List Nat)
      (tbl : List (List Nat × Expr)),
      rangeB e = true → noNullB e = true → stopB rest = true → parseFuelK e ≤ f →
      parseExpr f (writeExpr hr ind e ++ rest) tbl = .ok (e, rest, tbl)) ∧
    (∀ xs, parseFuelKA xs ≤ n → ∀ (hr : Bool) (ind f : Nat) (rest : List Nat)
      (tbl : List (List Nat × Expr)) (w : List Nat),
      rangeBList xs = true → noNullBList xs = true → (∀ c ∈ w, isWsChar c = true) →
      parseFuelKA xs ≤ f →
      parseArraySeq f (w ++ (writeArraySeq hr ind xs ++ (closeParen hr ind ++ rest))) tbl =
        .ok (xs, rest, tbl)) ∧
    (∀ ps, parseFuelKM ps ≤ n → ∀ (hr : Bool) (ind f : Nat) (rest : List Nat)
      (tbl : List (List Nat × Expr)) (w : List Nat),
      rangeBPairs ps = true → noNullBPairs ps = true → (∀ c ∈ w, isWsChar c = true) →
      parseFuelKM ps ≤ f →
      parseMapSeq f (w ++ (writeMapSeq hr ind ps ++ (closeParen hr ind ++ rest))) tbl =
        .ok (ps, rest, tbl)) := by
  intro n
  induction n with
  | zero =>
    refine ⟨fun e hK => absurd hK (by have := parseFuelK_pos e; omega),
      fun xs hK => absurd hK (by have := parseFuelKA_pos xs; omega),
      fun ps hK => absurd hK (by have := parseFuelKM_pos ps; omega)⟩
  | succ m ih =>
    obtain ⟨ihE, ihA, ihM⟩ := ih
    refine ⟨?_, ?_, ?_⟩
    · intro e hKn hr ind f rest tbl hR hN hstop hKf
      obtain ⟨g, rfl⟩ : ∃ g, f = g + 1 := ⟨f - 1, by have := parseFuelK_pos e; omega⟩
      match e with
      | .invalid => simp [rangeB] at hR
      | .null =>
        show parseExpr (g + 1) (nullAtom ++ rest) tbl = _
        rw [parseExpr.eq_def]
        simp only [nullAtom, List.cons_append, List.nil_append]
        rw [skipWs_stop 110 _ rfl (by omega)]
        simp only []
        rw [show ((110 : Nat) :: 117 :: 108 :: 108 :: rest) = nullAtom ++ rest from rfl,
          takeAtom_append nullAtom rest (by decide) hstop]
        simp [isReservedChar, nullAtom]
      | .value s =>
        show parseExpr (g + 1) (writeVal s ++ rest) tbl = _
        by_cases hq : quoteNeeded s = true
        · rw [writeVal, if_pos hq, parseExpr.eq_def]
          simp only [List.cons_append, List.append_assoc, List.singleton_append, List.nil_append]
          rw [skipWs_stop 34 _ rfl (by omega)]
          simp only []
          rw [parseQuoted_escape]
          simp
        · rw [writeVal, if_neg hq]
          have hq' : quoteNeeded s = false := by simpa using hq
          simp only [quoteNeeded, Bool.or_eq_false_iff] at hq'
          obtain ⟨hemp, hany⟩ := hq'
          have hatom : ∀ x ∈ s, isWsChar x = false ∧ isReservedChar x = false := by
            intro x hx
            have := List.any_eq_false.mp hany x hx
            simp only [Bool.or_eq_true, not_or, Bool.not_eq_true] at this
            exact this
          match s, hemp with
          | c :: s', _ =>
            have hc := hatom c (by simp)
            have hres := hc.2
            have hc59 : c ≠ 59 := by
              intro hcon
              subst hcon
              simp [isReservedChar] at hres
            rw [parseExpr.eq_def]
            simp only [List.cons_append]
            rw [skipWs_stop c _ hc.1 hc59]
            simp only [reserved_ne c 35 hres rfl, reserved_ne c 64 hres rfl,
              reserved_ne c 34 hres rfl, reserved_ne c 60 hres rfl,
              reserved_ne c 91 hres rfl, reserved_ne c 42 hres rfl,
              Bool.false_eq_true, if_false]
            rw [if_neg (by simp [hres])]
            rw [← List.cons_append, takeAtom_append (c :: s') rest hatom hstop]
            have hnul : ((c :: s') == nullAtom) = false := by
              simpa [noNullB] using hN
            simp [hnul]
      | .binaryData b =>
        have hb : ∀ x ∈ b, x < 256 := by
          simp only [rangeB, List.all_eq_true, decide_eq_true_eq] at hR
          exact hR
        have hne62 : ∀ x ∈ b64Encode b, x ≠ 62 := by
          intro x hx
          have h := b64Encode_out b hb x hx
          rcases h with h | h | h | h | h | h <;> omega
        show parseExpr (g + 1) ((60 :: (b64Encode b ++ [62])) ++ rest) tbl = _
        rw [parseExpr.eq_def]
        simp only [List.cons_append, List.append_assoc, List.singleton_append, List.nil_append]
        rw [skipWs_stop 60 _ rfl (by omega)]
        simp only []
        rw [takeUntilByte_append 62 _ rest hne62]
        simp only []
        rw [b64_roundtrip b hb]
        simp
      | .array xs =>
        simp only [parseFuelK] at hKn hKf
        simp only [rangeB] at hR
        simp only [noNullB] at hN
        show parseExpr (g + 1)
          ((35 :: 40 :: (openTail hr ++ writeArraySeq hr ind xs ++ closeParen hr ind)) ++ rest)
          tbl = _
        rw [parseExpr.eq_def]
        simp only [List.cons_append, List.append_assoc]
        rw [skipWs_stop 35 _ rfl (by omega)]
        simp only []
        rw [ihA xs (by omega) hr ind g rest tbl (openTail hr) hR hN (openTail_ws hr) (by omega)]
        simp
      | .map ps =>
        simp only [parseFuelK] at hKn hKf
        simp only [rangeB, Bool.and_eq_true] at hR
        simp only [noNullB] at hN
        show parseExpr (g + 1)
          ((64 :: 40 :: (openTail hr ++ writeMapSeq hr ind ps ++ closeParen hr ind)) ++ rest)
          tbl = _
        rw [parseExpr.eq_def]
        simp only [List.cons_append, List.append_assoc]
        rw [skipWs_stop 64 _ rfl (by omega)]
        simp only []
        rw [ihM ps (by omega) hr ind g rest tbl (openTail hr) hR.1 hN (openTail_ws hr) (by omega)]
        simp only []
        rw [dedupKeys_of_distinct ps hR.2]
        simp
    · intro xs hKn hr ind f rest tbl w hR hN hw hKf
      obtain ⟨g, rfl⟩ : ∃ g, f = g + 1 := ⟨f - 1, by have := parseFuelKA_pos xs; omega⟩
      match xs with
      | [] =>
        rw [parseArraySeq.eq_def]
        simp only [writeArraySeq, List.nil_append]
        rw [skipWs_append_ws w _ hw, skipWs_closeParen]
        simp
      | x :: r =>
        simp only [rangeBList, Bool.and_eq_true] at hR
        simp only [noNullBList, Bool.and_eq_true] at hN
        have hKx := parseFuelK_pos x
        have hKr := parseFuelKA_pos r
        simp only [parseFuelKA] at hKn hKf
        obtain ⟨c, rr, hcr, hcw, hc59, hc41⟩ := writeExpr_head hr (ind + 1) x hR.1
        have hskip : skipWs (w ++ (writeArraySeq hr ind (x :: r) ++ (closeParen hr ind ++ rest))) =
            c :: (rr ++ (childPost hr ++ (writeArraySeq hr ind r ++ (closeParen hr ind ++ rest)))) := by
          simp only [writeArraySeq, List.append_assoc]
          rw [skipWs_append_ws w _ hw, skipWs_append_ws _ _ (childPre_ws hr ind), hcr,
            List.cons_append, skipWs_stop c _ hcw hc59]
        rw [parseArraySeq.eq_def]
        simp only []
        rw [hskip]
        simp only []
        rw [if_neg (by simp [hc41])]
        rw [show c :: (rr ++ (childPost hr ++ (writeArraySeq hr ind r ++ (closeParen hr ind ++ rest)))) =
          writeExpr hr (ind + 1) x ++
            (childPost hr ++ (writeArraySeq hr ind r ++ (closeParen hr ind ++ rest)))
          from by rw [hcr, List.cons_append]]
        rw [ihE x (by omega) hr (ind + 1) g _ tbl hR.1 hN.1 (stopB_arrTail hr ind r rest)
          (by omega)]
        simp only []
        rw [ihA r (by omega) hr ind g rest tbl (childPost hr) hR.2 hN.2 (childPost_ws hr)
          (by omega)]
    · intro ps hKn hr ind f rest tbl w hR hN hw hKf
      obtain ⟨g, rfl⟩ : ∃ g, f = g + 1 := ⟨f - 1, by have := parseFuelKM_pos ps; omega⟩
      match ps with
      | [] =>
        rw [parseMapSeq.eq_def]
        simp only [writeMapSeq, List.nil_append]
        rw [skipWs_append_ws w _ hw, skipWs_closeParen]
        simp
      | (k, v) :: r =>
        simp only [rangeBPairs, Bool.and_eq_true] at hR
        simp only [noNullBPairs, Bool.and_eq_true] at hN
        have hKv := parseFuelK_pos v
        have hKr := parseFuelKM_pos r
        simp only [parseFuelKM] at hKn hKf
        obtain ⟨ck, rk, hck, hckw, hck59, hck41⟩ :=
          writeExpr_head hr (ind + 1) (.value k) (by simp [rangeB])
        have hck' : writeVal k = ck :: rk := hck
        obtain ⟨cv, rv, hcv, hcvw, hcv59, hcv41⟩ := writeExpr_head hr (ind + 1) v hR.1
        have hskip : skipWs (w ++ (writeMapSeq hr ind ((k, v) :: r) ++ (closeParen hr ind ++ rest))) =
            ck :: (rk ++ (32 :: (writeExpr hr (ind + 1) v ++
              (childPost hr ++ (writeMapSeq hr ind r ++ (closeParen hr ind ++ rest)))))) := by
          simp only [writeMapSeq, List.append_assoc, List.cons_append]
          rw [skipWs_append_ws w _ hw, skipWs_append_ws _ _ (childPre_ws hr ind), hck',
            List.cons_append, skipWs_stop ck _ hckw hck59]
        rw [parseMapSeq.eq_def]
        simp only []
        rw [hskip]
        simp only []
        rw [if_neg (by simp [hck41])]
        rw [show ck :: (rk ++ (32 :: (writeExpr hr (ind + 1) v ++
              (childPost hr ++ (writeMapSeq hr ind r ++ (closeParen hr ind ++ rest)))))) =
            writeExpr hr (ind + 1) (.value k) ++ (32 :: (writeExpr hr (ind + 1) v ++
              (childPost hr ++ (writeMapSeq hr ind r ++ (closeParen hr ind ++ rest)))))
          from by
            rw [show writeExpr hr (ind + 1) (.value k) = writeVal k from rfl, hck',
              List.cons_append]]
        rw [ihE (.value k) (by simp [parseFuelK]; omega) hr (ind + 1) g
          (32 :: (writeExpr hr (ind + 1) v ++
            (childPost hr ++ (writeMapSeq hr ind r ++ (closeParen hr ind ++ rest))))) tbl
          (by simp [rangeB]) (by simpa [noNullB] using hN.1.1) rfl (by simp [parseFuelK]; omega)]
        simp only []
        rw [skipWs_ws_cons 32 _ rfl]
        have hskip2 : skipWs (writeExpr hr (ind + 1) v ++
            (childPost hr ++ (writeMapSeq hr ind r ++ (closeParen hr ind ++ rest)))) =
            cv :: (rv ++ (childPost hr ++ (writeMapSeq hr ind r ++ (closeParen hr ind ++ rest)))) := by
          rw [hcv, List.cons_append, skipWs_stop cv _ hcvw hcv59]
        rw [hskip2]
        simp only []
        rw [if_neg (by simp [hcv41])]
        rw [show cv :: (rv ++ (childPost hr ++ (writeMapSeq hr ind r ++ (closeParen hr ind ++ rest)))) =
            writeExpr hr (ind + 1) v ++
              (childPost hr ++ (writeMapSeq hr ind r ++ (closeParen hr ind ++ rest)))
          from by rw [hcv, List.cons_append]]
        rw [ihE v (by omega) hr (ind + 1) g
          (childPost hr ++ (writeMapSeq hr ind r ++ (closeParen hr ind ++ rest))) tbl
          hR.1 hN.1.2 (stopB_mapTail hr ind r rest) (by omega)]
        simp only []
        rw [ihM r (by omega) hr ind g rest tbl (childPost hr) hR.2 hN.2 (childPost_ws hr)
          (by omega)]

theorem lookupKey_rangeB (k : List Nat) (tbl : List (List Nat × Expr)) (e : Expr)
    (htbl : tblOK tbl = true) (h : lookupKey k tbl = some e) : rangeB e = true := by
  induction tbl with
  | nil => simp [lookupKey] at h
  | cons p r ih =>
    obtain ⟨k2, v⟩ := p
    simp only [tblOK, List.all_cons, Bool.and_eq_true] at htbl
    rw [lookupKey] at h
    by_cases hk : k2 = k
    · rw [if_pos hk] at h
      injection h with h
      subst h
      exact htbl.1
    · rw [if_neg hk] at h
      exact ih (by simpa [tblOK] using htbl.2) h

/-- Everything the parser builds is parser-shaped: no Invalid node, binary
payloads are bytes, map keys pairwise distinct; and the reference table
stays parser-shaped. -/
theorem parse_range : ∀ f : Nat,
    (∀ l tbl e rest tbl2, tblOK tbl = true →
      parseExpr f l tbl = .ok (e, rest, tbl2) → rangeB e = true ∧ tblOK tbl2 = true) ∧
    (∀ l tbl xs rest tbl2, tblOK tbl = true →
      parseArraySeq f l tbl = .ok (xs, rest, tbl2) → rangeBList xs = true ∧ tblOK tbl2 = true) ∧
    (∀ l tbl ps rest tbl2, tblOK tbl = true →
      parseMapSeq f l tbl = .ok (ps, rest, tbl2) → rangeBPairs ps = true ∧ tblOK tbl2 = true) := by
  intro f
  induction f with
  | zero =>
    refine ⟨?_, ?_, ?_⟩ <;> intro l tbl a rest tbl2 htbl h <;> simp [parseExpr,
      parseArraySeq, parseMapSeq] at h
  | succ g ih =>
    obtain ⟨ihE, ihA, ihM⟩ := ih
    refine ⟨?_, ?_, ?_⟩
    · intro l tbl e rest tbl2 htbl h
      rw [parseExpr.eq_def] at h
      simp only [] at h
      cases hsk : skipWs l with
      | nil =>
        rw [hsk] at h
        simp at h
      | cons c r =>
        rw [hsk] at h
        simp only [] at h
        repeat' split at h
        all_goals (try (exfalso; simp at h; done))
        all_goals simp only [Except.ok.injEq, Prod.mk.injEq] at h
        case cons.isTrue.h_1.h_1 =>
          rename_i heq
          obtain ⟨he, hrest, htbl2⟩ := h
          subst he
          subst hrest
          subst htbl2
          have h1 := ihA _ _ _ _ _ htbl heq
          exact ⟨by simpa [rangeB] using h1.1, h1.2⟩
        case cons.isFalse.isTrue.h_1.h_1 =>
          rename_i heq
          obtain ⟨he, hrest, htbl2⟩ := h
          subst he
          subst hrest
          subst htbl2
          have h1 := ihM _ _ _ _ _ htbl heq
          refine ⟨?_, h1.2⟩
          simp only [rangeB, Bool.and_eq_true]
          exact ⟨rangeBPairs_dedupKeys _ h1.1, distinctKeysB_dedupKeys _⟩
        case cons.isFalse.isFalse.isTrue.h_1 =>
          obtain ⟨he, hrest, htbl2⟩ := h
          subst he
          subst hrest
          subst htbl2
          exact ⟨rfl, htbl⟩
        case cons.isFalse.isFalse.isFalse.isTrue.h_1.h_1 =>
          rename_i heq1 heq2
          obtain ⟨he, hrest, htbl2⟩ := h
          subst he
          subst hrest
          subst htbl2
          refine ⟨?_, htbl⟩
          simp only [rangeB, List.all_eq_true, decide_eq_true_eq]
          exact b64Decode_bounds _ _ heq2
        case cons.isFalse.isFalse.isFalse.isFalse.isTrue.h_1.h_1 =>
          rename_i heq1 heq2
          obtain ⟨he, hrest, htbl2⟩ := h
          subst he
          subst hrest
          subst htbl2
          have h1 := ihE _ _ _ _ _ htbl heq2
          refine ⟨h1.1, ?_⟩
          simp only [tblOK, List.all_cons, Bool.and_eq_true]
          exact ⟨h1.1, by simpa [tblOK] using h1.2⟩
        case cons.isFalse.isFalse.isFalse.isFalse.isFalse.isTrue.h_1.h_1.h_1 =>
          rename_i heq1 heq2
          obtain ⟨he, hrest, htbl2⟩ := h
          subst he
          subst hrest
          subst htbl2
          exact ⟨lookupKey_rangeB _ _ _ htbl heq2, htbl⟩
        case cons.isFalse.isFalse.isFalse.isFalse.isFalse.isFalse.isFalse.isTrue =>
          obtain ⟨he, hrest, htbl2⟩ := h
          subst he
          subst hrest
          subst htbl2
          exact ⟨rfl, htbl⟩
        case cons.isFalse.isFalse.isFalse.isFalse.isFalse.isFalse.isFalse.isFalse =>
          obtain ⟨he, hrest, htbl2⟩ := h
          subst he
          subst hrest
          subst htbl2
          exact ⟨rfl, htbl⟩
    · intro l tbl xs rest tbl2 htbl h
      rw [parseArraySeq.eq_def] at h
      simp only [] at h
      cases hsk : skipWs l with
      | nil =>
        rw [hsk] at h
        simp at h
      | cons c r =>
        rw [hsk] at h
        simp only [] at h
        repeat' split at h
        all_goals (try (exfalso; simp at h; done))
        all_goals simp only [Except.ok.injEq, Prod.mk.injEq] at h
        case cons.isTrue =>
          obtain ⟨he, hrest, htbl2⟩ := h
          subst he
          subst hrest
          subst htbl2
          exact ⟨rfl, htbl⟩
        case cons.isFalse.h_1.h_1 =>
          rename_i heq1 x1 x2 x3 x4 heq2
          obtain ⟨he, hrest, htbl2⟩ := h
          subst he
          subst hrest
          subst htbl2
          have h1 := ihE _ _ _ _ _ htbl heq1
          have h2 := ihA _ _ _ _ _ h1.2 heq2
          exact ⟨by simp [rangeBList, h1.1, h2.1], h2.2⟩
    · intro l tbl ps rest tbl2 htbl h
      rw [parseMapSeq.eq_def] at h
      simp only [] at h
      cases hsk : skipWs l with
      | nil =>
        rw [hsk] at h
        simp at h
      | cons c r =>
        rw [hsk] at h
        simp only [] at h
        repeat' split at h
        all_goals (try (exfalso; simp at h; done))
        all_goals simp only [Except.ok.injEq, Prod.mk.injEq] at h
        case cons.isTrue =>
          obtain ⟨he, hrest, htbl2⟩ := h
          subst he
          subst hrest
          subst htbl2
          exact ⟨rfl, htbl⟩
        case cons.isFalse.h_1.h_1.h_2.isFalse.h_1.h_1 =>
          rename_i heq1 a1 a2 a3 heq2 a4 a5 a6 a7 a8 heq3 a9 a10 a11 a12 heq4
          obtain ⟨he, hrest, htbl2⟩ := h
          subst he
          subst hrest
          subst htbl2
          have h1 := ihE _ _ _ _ _ htbl heq1
          have h3 := ihE _ _ _ _ _ h1.2 heq3
          have h4 := ihM _ _ _ _ _ h3.2 heq4
          exact ⟨by simp [rangeBPairs, h3.1, h4.1], h4.2⟩

/-! ### C10: unknown chunk types are skipped -/

/-- Claim C10: while scanning top-level chunks, a chunk whose type code is
greater than four is silently skipped, advancing past it by its declared
size, with the expression and error state untouched, whether or not an
expression has been built yet. -/
theorem scan_skips_unknown_chunk (bytes : List Nat) (p : Nat) (expr : Option Expr)
    (err : WexprError) (hp : p < bytes.length) (hty : 4 < (bytes.drop p).getD 4 0) :
    scanChunks bytes p expr err =
      scanChunks bytes (p + 5 + readBEU32 (bytes.drop p)) expr err :=
  scanChunks_skip_step bytes p expr err hp hty

theorem scan_skips_unknown_chunk_witness :
    scanChunks (fileHeader20 ++ [0, 0, 0, 1, 9, 99]) 20 none errorInit =
      scanChunks (fileHeader20 ++ [0, 0, 0, 1, 9, 99])
        (20 + 5 + readBEU32 ((fileHeader20 ++ [0, 0, 0, 1, 9, 99]).drop 20)) none errorInit :=
  scan_skips_unknown_chunk (fileHeader20 ++ [0, 0, 0, 1, 9, 99]) 20 none errorInit
    (by decide) (by decide)

/-! ### C2: at most one expression chunk -/

/-- Claim C2: after a valid header, once a chunk with a known type code
has been decoded into an expression, a later chunk with a known type code
makes the scan stop with the multiple-expressions error, and the driver
run fails without producing an expression result. -/
theorem binary_multiple_expressions_rejected
    (c tail : List Nat) (e : Expr) (cmd : Command) (path : String)
    (hdec : wexpr_Expression_createFromBinaryChunk c = .ok e)
    (hsize : c.length = readBEU32 c + 5)
    (htail : tail ≠ []) (hty2 : tail.getD 4 0 ≤ 4) :
    processInput (fileHeader20 ++ (c ++ tail)) =
      (some e, ⟨.binaryMultipleExpressions, 0, 0, "Found multiple expression chunks"⟩) ∧
    (runTool cmd path (fileHeader20 ++ (c ++ tail))).exitCode = 1 ∧
    (runTool cmd path (fileHeader20 ++ (c ++ tail))).stdout =
      (if cmd = .validate then strBytes "false\n" else []) := by
  have hc5 : 5 ≤ c.length := by omega
  have htlen : 1 ≤ tail.length := List.length_pos.mpr htail
  have hdrop20 : (fileHeader20 ++ (c ++ tail)).drop 20 = c ++ tail := by
    rw [show (20 : Nat) = fileHeader20.length from rfl]
    exact List.drop_left _ _
  have hlen : 20 < (fileHeader20 ++ (c ++ tail)).length := by
    simp [fileHeader20_length]
    omega
  have hBE2 : readBEU32 (c ++ tail) = readBEU32 c := by
    unfold readBEU32
    rw [List.getD_append _ _ _ _ (by omega), List.getD_append _ _ _ _ (by omega),
      List.getD_append _ _ _ _ (by omega), List.getD_append _ _ _ _ (by omega)]
  have hBE : readBEU32 ((fileHeader20 ++ (c ++ tail)).drop 20) = readBEU32 c := by
    rw [hdrop20, hBE2]
  have hty : ((fileHeader20 ++ (c ++ tail)).drop 20).getD 4 0 ≤ 4 := by
    rw [hdrop20, List.getD_append _ _ _ _ (by omega)]
    exact decodeChunk_ok_type _ c e hdec
  have htake : ((fileHeader20 ++ (c ++ tail)).drop 20).take
      (readBEU32 ((fileHeader20 ++ (c ++ tail)).drop 20) + 5) = c := by
    rw [hdrop20, hBE2, show readBEU32 c + 5 = c.length from hsize.symm]
    exact List.take_left _ _
  have step1 := scanChunks_decode_step (fileHeader20 ++ (c ++ tail)) 20 errorInit e hlen hty
    (by rw [htake]; exact hdec)
  have hpos : 20 + 5 + readBEU32 ((fileHeader20 ++ (c ++ tail)).drop 20) = 20 + c.length := by
    rw [hBE]
    omega
  have hdropc : (fileHeader20 ++ (c ++ tail)).drop (20 + c.length) = tail := by
    rw [show fileHeader20 ++ (c ++ tail) = (fileHeader20 ++ c) ++ tail by
      rw [List.append_assoc]]
    rw [show 20 + c.length = (fileHeader20 ++ c).length by simp [fileHeader20_length]]
    exact List.drop_left _ _
  have hlen2 : 20 + c.length < (fileHeader20 ++ (c ++ tail)).length := by
    simp [fileHeader20_length]
    omega
  have step2 := scanChunks_second_expr (fileHeader20 ++ (c ++ tail)) (20 + c.length) e errorInit
    hlen2 (by rw [hdropc]; exact hty2)
  have hPI : processInput (fileHeader20 ++ (c ++ tail)) =
      (some e, ⟨.binaryMultipleExpressions, 0, 0, "Found multiple expression chunks"⟩) := by
    rw [processInput_fileHeader (c ++ tail), step1, hpos, step2]
  refine ⟨hPI, ?_, ?_⟩
  · rw [runTool]
    simp only [hPI]
    by_cases hcmd : cmd = Command.validate <;> simp [hcmd]
  · rw [runTool]
    simp only [hPI]
    by_cases hcmd : cmd = Command.validate <;> simp [hcmd]

theorem binary_multiple_expressions_rejected_witness :
    (processInput (fileHeader20 ++ ([0, 0, 0, 0, 0] ++ [0, 0, 0, 0, 0])) =
      (some Expr.null,
        ⟨.binaryMultipleExpressions, 0, 0, "Found multiple expression chunks"⟩) ∧
    (runTool .mini "-" (fileHeader20 ++ ([0, 0, 0, 0, 0] ++ [0, 0, 0, 0, 0]))).exitCode = 1 ∧
    (runTool .mini "-" (fileHeader20 ++ ([0, 0, 0, 0, 0] ++ [0, 0, 0, 0, 0]))).stdout =
      (if Command.mini = Command.validate then strBytes "false\n" else [])) :=
  binary_multiple_expressions_rejected [0, 0, 0, 0, 0] [0, 0, 0, 0, 0] .null .mini "-"
    rfl (by decide) (by decide) (by decide)

/-! ### C4: validate output and exit codes -/

/-- Counterexample to claim C4 as stated: the bare valid 20-byte header
decodes without error (error code None), yet validate writes the false
line and exits nonzero, because no expression was produced. -/
theorem validate_no_error_still_false :
    (processInput fileHeader20).2.code = .none ∧
    (processInput fileHeader20).1 = none ∧
    runTool .validate "-" fileHeader20 = ⟨strBytes "false\n", [], 1⟩ := by
  have h0 : processInput fileHeader20 = (none, errorInit) := by
    have h := processInput_fileHeader []
    rw [List.append_nil] at h
    rw [h, scanChunks, dif_neg (by simp [fileHeader20_length])]
  refine ⟨by rw [h0]; rfl, by rw [h0], ?_⟩
  rw [runTool]
  simp [h0, errorInit]


/-- Claim C4 (amended): on an input that parses or decodes without error
and yields an expression, validate writes exactly the true line and exits
zero; on any parse or decode error, or when no expression results,
validate writes exactly the false line (printing no error) and exits
nonzero. -/
theorem validate_true_false (input : List Nat) (path : String) :
    ((processInput input).2.code = .none → (processInput input).1 ≠ none →
      runTool .validate path input = ⟨strBytes "true\n", [], 0⟩) ∧
    ((processInput input).2.code ≠ .none →
      runTool .validate path input = ⟨strBytes "false\n", [], 1⟩) ∧
    ((processInput input).2.code = .none → (processInput input).1 = none →
      runTool .validate path input = ⟨strBytes "false\n", [], 1⟩) := by
  rcases hPI : processInput input with ⟨oe, err⟩
  refine ⟨?_, ?_, ?_⟩
  · intro h1 h2
    have h1c : err.code = .none := h1
    have h2c : oe ≠ none := h2
    obtain ⟨e, rfl⟩ := Option.ne_none_iff_exists'.mp h2c
    rw [runTool]
    simp [hPI, h1c]
  · intro h1
    have h1c : err.code ≠ .none := h1
    rw [runTool]
    simp [hPI, h1c]
  · intro h1 h2
    have h1c : err.code = .none := h1
    have h2c : oe = none := h2
    subst h2c
    rw [runTool]
    simp [hPI, h1c]

theorem validate_true_false_witness :
    (((processInput (strBytes "null")).2.code = .none →
      (processInput (strBytes "null")).1 ≠ none →
      runTool .validate "-" (strBytes "null") = ⟨strBytes "true\n", [], 0⟩) ∧
    ((processInput (strBytes "null")).2.code ≠ .none →
      runTool .validate "-" (strBytes "null") = ⟨strBytes "false\n", [], 1⟩) ∧
    ((processInput (strBytes "null")).2.code = .none →
      (processInput (strBytes "null")).1 = none →
      runTool .validate "-" (strBytes "null") = ⟨strBytes "false\n", [], 1⟩)) :=
  validate_true_false (strBytes "null") "-"

/-! ### C7: error reporting of the non-validate commands -/

/-- Claim C7: a non-validate command on an input whose processing reports
an error exits nonzero and prints to stderr the line built from the tool
name, the input path (stdin spelled out), the 1-based or zero line and
column of the error, and its message; nothing is written to the output. -/
theorem tool_error_report (cmd : Command) (path : String) (input : List Nat)
    (hcmd : cmd ≠ .validate) (herr : (processInput input).2.code ≠ .none) :
    (runTool cmd path input).exitCode = 1 ∧
    (runTool cmd path input).stderrLines =
      ["WexprTool: Error occurred with wexpr:",
       "WexprTool: " ++ (if path = "-" then "(stdin)" else path) ++ ":" ++
         toString (processInput input).2.line ++ ":" ++
         toString (processInput input).2.column ++ ": " ++
         (processInput input).2.message] ∧
    (runTool cmd path input).stdout = [] := by
  rcases hPI : processInput input with ⟨oe, err⟩
  rw [hPI] at herr
  rw [runTool]
  simp [hPI, herr, hcmd, renderInputPath]

theorem tool_error_report_witness :
    ((runTool .mini "-" [0x83]).exitCode = 1 ∧
    (runTool .mini "-" [0x83]).stderrLines =
      ["WexprTool: Error occurred with wexpr:",
       "WexprTool: " ++ (if "-" = "-" then "(stdin)" else "-") ++ ":" ++
         toString (processInput [0x83]).2.line ++ ":" ++
         toString (processInput [0x83]).2.column ++ ": " ++
         (processInput [0x83]).2.message] ∧
    (runTool .mini "-" [0x83]).stdout = []) :=
  tool_error_report .mini "-" [0x83] (by decide) (by decide)

/-! ### C8: binary errors carry zero positions, textual errors 1-based -/

theorem scanChunks_err_zero : ∀ n bytes p (expr : Option Expr) (err : WexprError),
    bytes.length - p ≤ n → err.line = 0 → err.column = 0 →
    (scanChunks bytes p expr err).2.line = 0 ∧ (scanChunks bytes p expr err).2.column = 0 := by
  intro n
  induction n with
  | zero =>
    intro bytes p expr err hle h1 h2
    rw [scanChunks, dif_neg (by omega)]
    exact ⟨h1, h2⟩
  | succ k ih =>
    intro bytes p expr err hle h1 h2
    by_cases hp : p < bytes.length
    · rw [scanChunks]
      simp only [dif_pos hp]
      by_cases hty : (bytes.drop p).getD 4 0 ≤ 4
      · rw [if_pos hty]
        cases expr with
        | some e => simp
        | none =>
          simp only [Option.isSome_none, Bool.false_eq_true, if_false]
          cases hdec : wexpr_Expression_createFromBinaryChunk
              ((bytes.drop p).take (readBEU32 (bytes.drop p) + 5)) with
          | ok e => exact ih bytes _ (some e) err (by omega) h1 h2
          | error code => exact ih bytes _ none ⟨code, 0, 0, messageFor code⟩ (by omega) rfl rfl
      · rw [if_neg hty]
        exact ih bytes _ expr err (by omega) h1 h2
    · rw [scanChunks, dif_neg hp]
      exact ⟨h1, h2⟩

/-- Claim C8: every error on the binary path (bad header, unknown version,
nonzero reserved bytes, multiple expression chunks, chunk-decode errors)
carries line zero and column zero, while a textual parse error carries a
1-based line and column. -/
theorem binary_errors_zero_textual_one_based (input : List Nat) :
    ((1 ≤ input.length ∧ input.getD 0 0 = 0x83) →
      (processInput input).2.line = 0 ∧ (processInput input).2.column = 0) ∧
    (¬(1 ≤ input.length ∧ input.getD 0 0 = 0x83) → (processInput input).2.code ≠ .none →
      1 ≤ (processInput input).2.line ∧ 1 ≤ (processInput input).2.column) := by
  constructor
  · intro hbin
    rw [processInput, if_pos hbin]
    by_cases h20 : input.length < 20
    · rw [if_pos h20]
      exact ⟨rfl, rfl⟩
    rw [if_neg h20]
    by_cases hm : input.take 8 ≠ magicBytes
    · rw [if_pos hm]
      exact ⟨rfl, rfl⟩
    rw [if_neg hm]
    by_cases hv : (input.drop 8).take 4 ≠ [0, 0, 0, 1]
    · rw [if_pos hv]
      exact ⟨rfl, rfl⟩
    rw [if_neg hv]
    by_cases hres : (input.drop 12).take 8 ≠ List.replicate 8 0
    · rw [if_pos hres]
      exact ⟨rfl, rfl⟩
    rw [if_neg hres]
    exact scanChunks_err_zero input.length input 20 none errorInit (by omega) rfl rfl
  · intro hnb herr
    rw [processInput, if_neg hnb] at herr ⊢
    rw [wexpr_Expression_createFromLengthString] at herr ⊢
    cases hpd : parseDocBytes input with
    | ok e =>
      rw [hpd] at herr
      exact absurd rfl herr
    | error pe =>
      obtain ⟨code, rem⟩ := pe
      constructor
      · simp only [lineOfOffset]
        omega
      · simp only [colOfOffset]
        omega

theorem binary_errors_zero_textual_one_based_witness :
    (((1 ≤ ([0x83] : List Nat).length ∧ ([0x83] : List Nat).getD 0 0 = 0x83) →
      (processInput [0x83]).2.line = 0 ∧ (processInput [0x83]).2.column = 0) ∧
    (¬(1 ≤ ([0x83] : List Nat).length ∧ ([0x83] : List Nat).getD 0 0 = 0x83) →
      (processInput [0x83]).2.code ≠ .none →
      1 ≤ (processInput [0x83]).2.line ∧ 1 ≤ (processInput [0x83]).2.column)) :=
  binary_errors_zero_textual_one_based [0x83]

/-! ### C6: accessors on non-Value and null or invalid receivers -/

/-- Claim C6: getting the value of any expression whose type is not Value
(the null pointer and Invalid and Null receivers included) yields the
empty string, and on a receiver of type Null or Invalid (the null pointer
included) the array and map counts are zero and element and key lookups
return null pointers. -/
theorem accessors_empty_on_non_value (e : Option Expr)
    (hv : wexpr_Expression_type e ≠ .value) :
    wexpr_Expression_value e = [] ∧
    ((wexpr_Expression_type e = .null ∨ wexpr_Expression_type e = .invalid) →
      wexpr_Expression_arrayCount e = 0 ∧
      wexpr_Expression_mapCount e = 0 ∧
      (∀ i, wexpr_Expression_arrayAt e i = none) ∧
      (∀ i, wexpr_Expression_mapValueAt e i = none) ∧
      (∀ i, wexpr_Expression_mapKeyAt e i = none) ∧
      (∀ k, wexpr_Expression_mapValueForKey e k = none)) := by
  match e with
  | none =>
    exact ⟨rfl, fun _ => ⟨rfl, rfl, fun _ => rfl, fun _ => rfl, fun _ => rfl, fun _ => rfl⟩⟩
  | some .invalid =>
    exact ⟨rfl, fun _ => ⟨rfl, rfl, fun _ => rfl, fun _ => rfl, fun _ => rfl, fun _ => rfl⟩⟩
  | some .null =>
    exact ⟨rfl, fun _ => ⟨rfl, rfl, fun _ => rfl, fun _ => rfl, fun _ => rfl, fun _ => rfl⟩⟩
  | some (.value s) => exact absurd rfl hv
  | some (.binaryData b) =>
    refine ⟨rfl, fun hcon => ?_⟩
    rcases hcon with h | h <;> simp [wexpr_Expression_type] at h
  | some (.array xs) =>
    refine ⟨rfl, fun hcon => ?_⟩
    rcases hcon with h | h <;> simp [wexpr_Expression_type] at h
  | some (.map ps) =>
    refine ⟨rfl, fun hcon => ?_⟩
    rcases hcon with h | h <;> simp [wexpr_Expression_type] at h

theorem accessors_empty_on_non_value_witness :
    (wexpr_Expression_value (some Expr.null) = [] ∧
    ((wexpr_Expression_type (some Expr.null) = .null ∨
      wexpr_Expression_type (some Expr.null) = .invalid) →
      wexpr_Expression_arrayCount (some Expr.null) = 0 ∧
      wexpr_Expression_mapCount (some Expr.null) = 0 ∧
      (∀ i, wexpr_Expression_arrayAt (some Expr.null) i = none) ∧
      (∀ i, wexpr_Expression_mapValueAt (some Expr.null) i = none) ∧
      (∀ i, wexpr_Expression_mapKeyAt (some Expr.null) i = none) ∧
      (∀ k, wexpr_Expression_mapValueForKey (some Expr.null) k = none))) :=
  accessors_empty_on_non_value (some Expr.null) (by decide)

/-! ### C5: base64 round-trip and alphabet -/

/-- Claim C5: decoding the encoding of any byte string gives the bytes
back; the encoder emits only bytes of the base64 alphabet with padding;
the empty byte string encodes to the empty string and the empty string
decodes to the empty buffer. -/
theorem base64_roundtrip_alphabet (b : List Nat) (h : ∀ x ∈ b, x < 256) :
    b64Decode (b64Encode b) = some b ∧
    (∀ c ∈ b64Encode b, isB64OutByte c) ∧
    b64Encode [] = [] ∧ b64Decode [] = some [] :=
  ⟨b64_roundtrip b h, b64Encode_out b h, rfl, rfl⟩

theorem base64_roundtrip_alphabet_witness :
    (b64Decode (b64Encode [72, 0, 255, 33]) = some [72, 0, 255, 33] ∧
    (∀ c ∈ b64Encode [72, 0, 255, 33], isB64OutByte c) ∧
    b64Encode [] = [] ∧ b64Decode [] = some []) :=
  base64_roundtrip_alphabet [72, 0, 255, 33] (by decide)

/-! ### C1: textual round-trip -/

/-- Claim C1 (amended): for every parseable textual input whose parsed
tree carries no Value string (element or map key) spelled exactly `null`,
serializing the tree with the textual writer in either mode and parsing
the result again yields the same tree.  The restriction is forced: the
writer emits a quoted `"null"` Value unquoted, and the parser reads the
bare word back as the Null expression (see the counterexample). -/
theorem text_roundtrip (t : List Nat) (e : Expr) (hr : Bool)
    (hp : parseDocBytes t = .ok e) (hn : noNullB e = true) :
    parseDocBytes (wexpr_Expression_createStringRepresentation e 0 hr) = .ok e := by
  rw [parseDocBytes.eq_def] at hp
  cases hsk : skipWs t with
  | nil =>
    rw [hsk] at hp
    simp only [Except.ok.injEq] at hp
    subst hp
    have hw : wexpr_Expression_createStringRepresentation Expr.invalid 0 hr = [] := by
      cases hr <;> rfl
    rw [hw]
    rfl
  | cons c r =>
    rw [hsk] at hp
    simp only [] at hp
    cases hpe : parseExpr (t.length + 1) (c :: r) [] with
    | error err =>
      rw [hpe] at hp
      simp at hp
    | ok res =>
      obtain ⟨e2, rest, tbl2⟩ := res
      rw [hpe] at hp
      simp only [] at hp
      cases hsr : skipWs rest with
      | cons d rr =>
        rw [hsr] at hp
        simp at hp
      | nil =>
        rw [hsr] at hp
        simp only [Except.ok.injEq] at hp
        subst hp
        have hrange := (parse_range (t.length + 1)).1 (c :: r) [] e2 rest tbl2 rfl hpe
        obtain ⟨c0, r0, hw, hcw, hc59, hc41⟩ := writeExpr_head hr 0 e2 hrange.1
        have hK : parseFuelK e2 ≤ (writeExpr hr 0 e2).length :=
          (K_le_wlen (parseFuelK e2)).1 e2 le_rfl hrange.1 hr 0
        have hparse := (parse_writeExpr (parseFuelK e2)).1 e2 le_rfl hr 0
          ((writeExpr hr 0 e2).length + 1) [] [] hrange.1 hn rfl (by omega)
        rw [List.append_nil] at hparse
        show parseDocBytes (writeExpr hr 0 e2) = .ok e2
        rw [parseDocBytes.eq_def]
        rw [hw, skipWs_stop c0 r0 hcw hc59]
        simp only []
        rw [show (c0 :: r0).length + 1 = (writeExpr hr 0 e2).length + 1 from by rw [hw],
          show (c0 :: r0) = writeExpr hr 0 e2 from hw.symm, hparse]
        rfl

/-- Counterexample to claim C1 as stated: the quoted input `"null"` parses
to the Value `null`, both writer modes emit it unquoted as the bare word
`null`, and that reparses to the Null expression, which is not the Value. -/
theorem text_roundtrip_counterexample :
    parseDocBytes [34, 110, 117, 108, 108, 34] = .ok (.value nullAtom) ∧
    wexpr_Expression_createStringRepresentation (.value nullAtom) 0 false = nullAtom ∧
    wexpr_Expression_createStringRepresentation (.value nullAtom) 0 true = nullAtom ∧
    parseDocBytes nullAtom = .ok .null ∧
    Expr.null ≠ Expr.value nullAtom :=
  ⟨rfl, rfl, rfl, rfl, fun h => Expr.noConfusion h⟩

theorem text_roundtrip_witness :
    parseDocBytes [97] = .ok (.value [97]) ∧ noNullB (.value [97]) = true ∧
    parseDocBytes (wexpr_Expression_createStringRepresentation (.value [97]) 0 false) =
      .ok (.value [97]) ∧
    parseDocBytes (wexpr_Expression_createStringRepresentation (.value [97]) 0 true) =
      .ok (.value [97]) :=
  ⟨rfl, rfl, text_roundtrip [97] (.value [97]) false rfl rfl,
    text_roundtrip [97] (.value [97]) true rfl rfl⟩

end Wexpr
